import Mathlib

/-!
Verification of the metavoxels Bitstream codec
(`libraries/metavoxels/src/Bitstream.cpp`).

The C++ code is shallowly embedded: machine bytes are `Nat` values kept
below 256, byte buffers are `List Nat` (one entry per byte, mirroring the
`quint8*` pointers), and bit streams are `List Bool` with the least
significant bit first, matching the codec's LSB-first packing.  Fallible
parsing returns `Option`.
-/

/-! ### Bit-list preliminaries -/

/-- The `n`-bit LSB-first bit list of `v`, as `Bitstream::write(&v, n)`
produces for a nonnegative little-endian integer. -/
def toBitsLE (n v : Nat) : List Bool :=
  (List.range n).map (fun i => v.testBit i)

/-- Decode an LSB-first bit list back to the natural number it denotes. -/
def ofBitsLE : List Bool → Nat
  | [] => 0
  | b :: rest => (if b then 1 else 0) + 2 * ofBitsLE rest

/-- The eight bits of one byte, LSB first. -/
def byteBits (b : Nat) : List Bool := toBitsLE 8 b

/-- The bit stream denoted by a byte list. -/
def bytesBits (bs : List Nat) : List Bool := bs.flatMap byteBits

/-- Bit `i` of a byte buffer: bit `i % 8` of byte `i / 8` (reading past the
end yields `false`, mirroring that the C++ never does so in a valid call). -/
def bufBit (buf : List Nat) (i : Nat) : Bool :=
  (buf.getD (i / 8) 0).testBit (i % 8)

/-- The `n` buffer bits starting at bit index `offset`. -/
def bufBits (buf : List Nat) (offset n : Nat) : List Bool :=
  (List.range n).map (fun i => bufBit buf (offset + i))

/-! ### Bitstream bit-level state and operations

`Bitstream` holds an 8-bit accumulator `_byte` and a cursor `_position`;
the write side appends emitted bytes to `out` (the `_underlying` stream),
the read side consumes bytes from `inp`. -/

/-- Writer-side cursor state of a `Bitstream` plus the bytes emitted so far. -/
structure WriteState where
  byte : Nat
  position : Nat
  out : List Nat
deriving Repr, DecidableEq

/-- Reader-side cursor state of a `Bitstream` plus the bytes still unread. -/
structure ReadState where
  byte : Nat
  position : Nat
  inp : List Nat
deriving Repr, DecidableEq

/-- A freshly constructed writer (`_byte = 0`, `_position = 0`). -/
def WriteState.fresh : WriteState := ⟨0, 0, []⟩

/-- A freshly constructed reader on input `bs`. -/
def ReadState.fresh (bs : List Nat) : ReadState := ⟨0, 0, bs⟩

/-- `Bitstream::flush()`: emit the partial byte if any and reset. -/
def Bitstream.flush (s : WriteState) : WriteState :=
  if s.position = 0 then s else ⟨0, 0, s.out ++ [s.byte]⟩

/-- `Bitstream::operator<<(bool)`: set bit `_position` if the value is true,
advance the cursor, and flush when it reaches 8. -/
def Bitstream.writeBool (s : WriteState) (value : Bool) : WriteState :=
  let byte' := if value then s.byte ||| (1 <<< s.position) else s.byte
  if s.position + 1 = 8 then ⟨0, 0, s.out ++ [byte']⟩
  else ⟨byte', s.position + 1, s.out⟩

/-- `Bitstream::operator>>(bool&)`: refill the accumulator when the cursor
is 0, then test bit `_position` and advance the cursor modulo 8. -/
def Bitstream.readBool (s : ReadState) : Bool × ReadState :=
  let s1 := if s.position = 0 then ReadState.mk (s.inp.headD 0) 0 s.inp.tail else s
  (s1.byte.testBit s1.position, ⟨s1.byte, (s1.position + 1) % 8, s1.inp⟩)

/-- `Bitstream::write(data, bits, offset)`: pack `bits` bits taken LSB-first
from the byte buffer `src` starting at bit `offset` of its first byte.  The
loop body is mirrored exactly; the `bitsToWrite = 0` guard is unreachable
while `position < 8` and `offset < 8` (outside that domain the C++ loop
makes no progress either).  The loop is expressed with a structural fuel
counter — each iteration consumes at least one bit, so `bits` iterations
always suffice (`Bitstream.writeLoop_fuel` below). -/
def Bitstream.writeLoop : Nat → WriteState → List Nat → Nat → Nat → WriteState
  | 0, s, _, _, _ => s
  | fuel + 1, s, src, bits, offset =>
    if bits = 0 then s
    else
      let bitsToWrite := min (8 - s.position) (min (8 - offset) bits)
      if bitsToWrite = 0 then s
      else
        let byte' := s.byte ||| ((((src.headD 0) >>> offset) &&& (2 ^ bitsToWrite - 1)) <<< s.position)
        let s' : WriteState :=
          if s.position + bitsToWrite = 8 then ⟨0, 0, s.out ++ [byte']⟩
          else ⟨byte', s.position + bitsToWrite, s.out⟩
        if offset + bitsToWrite = 8 then
          Bitstream.writeLoop fuel s' src.tail (bits - bitsToWrite) 0
        else
          Bitstream.writeLoop fuel s' src (bits - bitsToWrite) (offset + bitsToWrite)

def Bitstream.write (s : WriteState) (src : List Nat) (bits offset : Nat) :
    WriteState :=
  Bitstream.writeLoop bits s src bits offset

/-- `Bitstream::read(data, bits, offset)`: the inverse loop; returns the new
reader state and the updated destination buffer (whose head mirrors the
`dest` pointer).  The `quint8` store `*dest = (*dest & ~mask) | ...` acts on
the low 8 bits only, so with `d0 < 256` the complement is `255 ^^^ mask`.
As with the writer, the loop runs on a structural fuel counter and `bits`
iterations always suffice. -/
def Bitstream.readLoop : Nat → ReadState → List Nat → Nat → Nat → ReadState × List Nat
  | 0, s, dest, _, _ => (s, dest)
  | fuel + 1, s, dest, bits, offset =>
    if bits = 0 then (s, dest)
    else
      let s1 := if s.position = 0 then ReadState.mk (s.inp.headD 0) 0 s.inp.tail else s
      let bitsToRead := min (8 - s1.position) (min (8 - offset) bits)
      if bitsToRead = 0 then (s1, dest)
      else
        let mask := (2 ^ bitsToRead - 1) <<< offset
        let d0 := dest.headD 0
        let d0' := (d0 &&& (255 ^^^ mask)) ||| (((s1.byte >>> s1.position) <<< offset) &&& mask)
        let s2 : ReadState := ⟨s1.byte, (s1.position + bitsToRead) % 8, s1.inp⟩
        if offset + bitsToRead = 8 then
          let r := Bitstream.readLoop fuel s2 dest.tail (bits - bitsToRead) 0
          (r.1, d0' :: r.2)
        else
          Bitstream.readLoop fuel s2 (d0' :: dest.tail) (bits - bitsToRead) (offset + bitsToRead)

def Bitstream.read (s : ReadState) (dest : List Nat) (bits offset : Nat) :
    ReadState × List Nat :=
  Bitstream.readLoop bits s dest bits offset

/-- Iterate `Bitstream::operator>>(bool&)` `n` times, collecting the bits. -/
def Bitstream.readBools (s : ReadState) : Nat → List Bool × ReadState
  | 0 => ([], s)
  | n + 1 =>
    let r := Bitstream.readBool s
    let rest := Bitstream.readBools r.2 n
    (r.1 :: rest.1, rest.2)

/-- Iterate `Bitstream::operator<<(bool)` over a list of bits. -/
def Bitstream.writeBools (s : WriteState) (l : List Bool) : WriteState :=
  l.foldl Bitstream.writeBool s

/-! ### C4 — scenario S1, bit packing -/

/-- **C4** (confirmed).  From a fresh `Bitstream`, writing booleans
`true, false, true, true` and flushing emits exactly the single byte
`0b00001101 = 0x0D`; reading four booleans back yields the original
sequence. -/
theorem c4_bit_packing_s1 :
    (Bitstream.flush (Bitstream.writeBools WriteState.fresh [true, false, true, true])).out
        = [13] ∧
      (Bitstream.readBools (ReadState.fresh [13]) 4).1 = [true, false, true, true] := by
  constructor <;> rfl

/-! ### IDStreamer -/

/-- The `while (highestValue != 0) { bits++; highestValue >>= 1; }` loop of
`getBitsForHighestValue`, on a structural fuel counter (`v` halvings always
suffice). -/
def getBitsLoop : Nat → Nat → Nat
  | 0, _ => 0
  | fuel + 1, v => if v = 0 then 0 else 1 + getBitsLoop fuel (v / 2)

/-- `getBitsForHighestValue`: count the binary digits of `highestValue`. -/
def getBitsForHighestValue (v : Nat) : Nat :=
  getBitsLoop v v

theorem getBitsLoop_congr (f1 f2 v : Nat) (h1 : v ≤ f1) (h2 : v ≤ f2) :
    getBitsLoop f1 v = getBitsLoop f2 v := by
  induction v using Nat.strong_induction_on generalizing f1 f2 with
  | _ v ih =>
    by_cases hv : v = 0
    · subst hv
      cases f1 <;> cases f2 <;> simp [getBitsLoop]
    · have hv1 : 1 ≤ v := Nat.pos_of_ne_zero hv
      obtain ⟨g1, rfl⟩ : ∃ g, f1 = g + 1 := ⟨f1 - 1, by omega⟩
      obtain ⟨g2, rfl⟩ : ∃ g, f2 = g + 1 := ⟨f2 - 1, by omega⟩
      simp only [getBitsLoop, hv, if_false]
      refine congrArg _ (ih (v / 2) (Nat.div_lt_self hv1 one_lt_two) g1 g2 ?_ ?_) <;> omega

theorem getBitsForHighestValue_zero : getBitsForHighestValue 0 = 0 := rfl

theorem getBitsForHighestValue_of_ne_zero {v : Nat} (hv : v ≠ 0) :
    getBitsForHighestValue v = 1 + getBitsForHighestValue (v / 2) := by
  obtain ⟨g, rfl⟩ : ∃ g, v = g + 1 := ⟨v - 1, by omega⟩
  show getBitsLoop (g + 1) (g + 1) = 1 + getBitsLoop ((g + 1) / 2) ((g + 1) / 2)
  simp only [getBitsLoop]
  rw [if_neg hv]
  exact congrArg _ (getBitsLoop_congr g ((g + 1) / 2) ((g + 1) / 2) (by omega) le_rfl)

/-- `IDStreamer::setBitsFromValue(value)`: `_bits = getBitsForHighestValue(value + 1)`. -/
def IDStreamer.setBitsFromValue (value : Nat) : Nat :=
  getBitsForHighestValue (value + 1)

/-- `IDStreamer::operator<<(int)`: emit the low `_bits` bits of `value` and
increment `_bits` when `value == (1 << _bits) - 1`.  Returns the emitted
bits and the new `_bits`. -/
def IDStreamer.writeID (bits id : Nat) : List Bool × Nat :=
  (toBitsLE bits id, if id = 2 ^ bits - 1 then bits + 1 else bits)

/-- `IDStreamer::operator>>(int&)`: read `_bits` bits and increment `_bits`
when the value read equals `(1 << _bits) - 1`.  Returns the value, the new
`_bits`, and the remaining input. -/
def IDStreamer.readID (bits : Nat) (l : List Bool) : Nat × Nat × List Bool :=
  let value := ofBitsLE (l.take bits)
  (value, (if value = 2 ^ bits - 1 then bits + 1 else bits), l.drop bits)

/-- A writer performing a sequence of `IDStreamer` writes. -/
def IDStreamer.writeIDs (bits : Nat) : List Nat → List Bool × Nat
  | [] => ([], bits)
  | id :: rest =>
    let w := IDStreamer.writeID bits id
    let r := IDStreamer.writeIDs w.2 rest
    (w.1 ++ r.1, r.2)

/-- A reader performing `n` `IDStreamer` reads. -/
def IDStreamer.readIDs (bits : Nat) : Nat → List Bool → List Nat × Nat × List Bool
  | 0, l => ([], bits, l)
  | n + 1, l =>
    let r := IDStreamer.readID bits l
    let rest := IDStreamer.readIDs r.2.1 n r.2.2
    (r.1 :: rest.1, rest.2)

/-- Every id in the sequence fits in the width current when it is written. -/
def IDStreamer.fitsFrom (bits : Nat) : List Nat → Bool
  | [] => true
  | id :: rest =>
    decide (id < 2 ^ bits) && IDStreamer.fitsFrom (IDStreamer.writeID bits id).2 rest

/-! ### Bit-list lemmas -/

theorem toBitsLE_length (n v : Nat) : (toBitsLE n v).length = n := by
  simp [toBitsLE]

theorem toBitsLE_succ (n v : Nat) :
    toBitsLE (n + 1) v = v.testBit 0 :: toBitsLE n (v / 2) := by
  simp only [toBitsLE, List.range_succ_eq_map, List.map_cons, List.map_map]
  refine congrArg _ (List.map_congr_left fun i _ => ?_)
  simp [Nat.testBit_add_one]

theorem ofBitsLE_toBitsLE (n v : Nat) : ofBitsLE (toBitsLE n v) = v % 2 ^ n := by
  induction n generalizing v with
  | zero => simp [toBitsLE, ofBitsLE, Nat.mod_one]
  | succ k ih =>
    rw [toBitsLE_succ, ofBitsLE, ih, pow_succ', Nat.mod_mul, Nat.testBit_zero]
    rcases Nat.mod_two_eq_zero_or_one v with h | h <;> simp [h]

theorem ofBitsLE_toBitsLE_of_lt {n v : Nat} (h : v < 2 ^ n) :
    ofBitsLE (toBitsLE n v) = v := by
  rw [ofBitsLE_toBitsLE, Nat.mod_eq_of_lt h]

theorem take_toBitsLE_append (n v : Nat) (rest : List Bool) :
    (toBitsLE n v ++ rest).take n = toBitsLE n v := by
  rw [List.take_append_of_le_length (by simp [toBitsLE_length])]
  simp [toBitsLE_length]

theorem drop_toBitsLE_append (n v : Nat) (rest : List Bool) :
    (toBitsLE n v ++ rest).drop n = rest := by
  rw [List.drop_append_of_le_length (by simp [toBitsLE_length])]
  simp [toBitsLE_length]

/-! ### IDStreamer lemmas -/

theorem getBitsForHighestValue_le_iff (v n : Nat) :
    getBitsForHighestValue v ≤ n ↔ v < 2 ^ n := by
  induction v using Nat.strong_induction_on generalizing n with
  | _ v ih =>
    by_cases hv : v = 0
    · subst hv
      rw [getBitsForHighestValue_zero]
      simp only [Nat.zero_le, true_iff]
      exact pow_pos (by norm_num) n
    · rw [getBitsForHighestValue_of_ne_zero hv]
      cases n with
      | zero =>
        simp only [pow_zero]
        constructor
        · intro h; omega
        · intro h; omega
      | succ m =>
        have hdiv := ih (v / 2) (Nat.div_lt_self (Nat.pos_of_ne_zero hv) one_lt_two) m
        rw [pow_succ']
        constructor
        · intro h
          have h1 : getBitsForHighestValue (v / 2) ≤ m := by omega
          have h2 := hdiv.mp h1
          omega
        · intro h
          have h1 : v / 2 < 2 ^ m := by omega
          have h2 := hdiv.mpr h1
          omega

/-- `setBitsFromValue(max)` equals `⌈log₂ (max + 2)⌉`. -/
theorem setBitsFromValue_eq_clog (mx : Nat) :
    IDStreamer.setBitsFromValue mx = Nat.clog 2 (mx + 2) := by
  refine Nat.le_antisymm ?_ ?_
  · rw [IDStreamer.setBitsFromValue, getBitsForHighestValue_le_iff]
    have h1 : mx + 2 ≤ 2 ^ Nat.clog 2 (mx + 2) :=
      (Nat.le_pow_iff_clog_le (by norm_num)).mpr le_rfl
    omega
  · rw [← Nat.le_pow_iff_clog_le (by norm_num)]
    have h1 := (getBitsForHighestValue_le_iff (mx + 1)
      (IDStreamer.setBitsFromValue mx)).mp le_rfl
    omega

theorem IDStreamer.readIDs_writeIDs (bits : Nat) (ids : List Nat) (rest : List Bool)
    (hfit : IDStreamer.fitsFrom bits ids = true) :
    IDStreamer.readIDs bits ids.length ((IDStreamer.writeIDs bits ids).1 ++ rest)
      = (ids, (IDStreamer.writeIDs bits ids).2, rest) := by
  induction ids generalizing bits rest with
  | nil => simp [IDStreamer.readIDs, IDStreamer.writeIDs]
  | cons id tl ih =>
    simp only [IDStreamer.fitsFrom, Bool.and_eq_true, decide_eq_true_eq] at hfit
    obtain ⟨hlt, hfit'⟩ := hfit
    have key : ∀ X : List Bool, IDStreamer.readID bits (toBitsLE bits id ++ X)
        = (id, (IDStreamer.writeID bits id).2, X) := by
      intro X
      unfold IDStreamer.readID IDStreamer.writeID
      rw [take_toBitsLE_append, drop_toBitsLE_append, ofBitsLE_toBitsLE_of_lt hlt]
    have hfst : (IDStreamer.writeID bits id).1 = toBitsLE bits id := rfl
    simp only [IDStreamer.writeIDs, IDStreamer.readIDs, List.length_cons,
      List.append_assoc, hfst, key, ih _ _ hfit']

/-! ### C3 — IDStreamer contract -/

/-- **C3** (confirmed).  The `IDStreamer` state is one integer `bits`
(initialized to 1 by the constructor); `write(id)` emits `id` in exactly
`bits` bits and increments `bits` iff `id == (1<<bits)-1`; `read()` reads
`bits` bits and increments `bits` iff the value read equals `(1<<bits)-1`;
`setBitsFromValue(max)` sets `bits` to `⌈log₂(max+2)⌉`; and a reader
performing the same sequence of operations as a writer recovers the ids
and ends with the same `bits` counter. -/
theorem c3_idstreamer_contract :
    (∀ bits id, (IDStreamer.writeID bits id).1.length = bits) ∧
    (∀ bits id, (IDStreamer.writeID bits id).2
        = if id = 2 ^ bits - 1 then bits + 1 else bits) ∧
    (∀ bits l, (IDStreamer.readID bits l).2.1
        = if (IDStreamer.readID bits l).1 = 2 ^ bits - 1 then bits + 1 else bits) ∧
    (∀ mx, IDStreamer.setBitsFromValue mx = Nat.clog 2 (mx + 2)) ∧
    (∀ bits ids rest, IDStreamer.fitsFrom bits ids = true →
      IDStreamer.readIDs bits ids.length ((IDStreamer.writeIDs bits ids).1 ++ rest)
        = (ids, (IDStreamer.writeIDs bits ids).2, rest)) :=
  ⟨fun bits id => toBitsLE_length bits id,
   fun _ _ => rfl,
   fun _ _ => rfl,
   setBitsFromValue_eq_clog,
   IDStreamer.readIDs_writeIDs⟩

/-- Witness for C3: the scenario-S2 id sequence `0, 1, 3` starting from
`bits = 1` (widths 1, 2, 2 with growth after each sentinel). -/
theorem c3_idstreamer_contract_witness :
    IDStreamer.fitsFrom 1 [0, 1, 3] = true ∧
      IDStreamer.readIDs 1 3 ((IDStreamer.writeIDs 1 [0, 1, 3]).1 ++ [])
        = ([0, 1, 3], (IDStreamer.writeIDs 1 [0, 1, 3]).2, []) :=
  ⟨by decide, c3_idstreamer_contract.2.2.2.2 1 [0, 1, 3] [] (by decide)⟩

/-! ### Delta encoding (TypeStreamer, EnumTypeStreamer, bool overload)

The generic `TypeStreamer::writeDelta/readDelta` pair is parameterized by
the per-type equality test and raw-delta codec (the virtual `equal`,
`writeRawDelta` and `readRawDelta` methods a registered streamer
overrides). -/

/-- `TypeStreamer::writeDelta(out, value, reference)`: one bit 0 when equal,
else bit 1 followed by the raw delta. -/
def TypeStreamer.writeDelta {α : Type} (equalF : α → α → Bool)
    (writeRawDelta : α → α → List Bool) (value reference : α) : List Bool :=
  if equalF value reference then [false] else true :: writeRawDelta value reference

/-- `TypeStreamer::readDelta(in, value, reference)`: read the changed bit;
if set, read the raw delta, else the value is the reference. -/
def TypeStreamer.readDelta {α : Type}
    (readRawDelta : List Bool → α → Option (α × List Bool))
    (l : List Bool) (reference : α) : Option (α × List Bool) :=
  match l with
  | [] => none
  | changed :: rest =>
    if changed then readRawDelta rest reference else some (reference, rest)

/-- `EnumTypeStreamer::writeDelta`: one bit 0 when the int values agree,
else bit 1 followed by the value in `getBits()` bits. -/
def EnumTypeStreamer.writeDelta (bits value reference : Nat) : List Bool :=
  if value = reference then [false] else true :: toBitsLE bits value

/-- `EnumTypeStreamer::readDelta`. -/
def EnumTypeStreamer.readDelta (bits : Nat) (l : List Bool) (reference : Nat) :
    Option (Nat × List Bool) :=
  match l with
  | [] => none
  | changed :: rest =>
    if changed then some (ofBitsLE (rest.take bits), rest.drop bits)
    else some (reference, rest)

/-- `Bitstream::writeDelta(bool value, bool reference)`: writes the value
itself as a single bit, ignoring the reference. -/
def Bitstream.writeDeltaBool (value reference : Bool) : List Bool :=
  [value]

/-- `Bitstream::readDelta(bool& value, bool reference)`: reads one bit. -/
def Bitstream.readDeltaBool (l : List Bool) (reference : Bool) :
    Option (Bool × List Bool) :=
  match l with
  | [] => none
  | b :: rest => some (b, rest)

/-! ### C2 — delta correctness -/

/-- **C2** (corrected): the claim that the delta encoding of `v == ref` is
one *zero* bit fails for the bool overload: `Bitstream::writeDelta(true,
true)` emits the single bit 1, not 0. -/
theorem c2_bool_delta_counterexample :
    Bitstream.writeDeltaBool true true = [true] ∧
      Bitstream.writeDeltaBool true true ≠ [false] := by
  constructor
  · rfl
  · intro h
    simp [Bitstream.writeDeltaBool] at h

/-- **C2** (amended).  For the generic `TypeStreamer` delta protocol,
`readDelta` against the same reference recovers `v` from the bits
`writeDelta(v, ref)` produced (given faithful `equal` and a raw-delta
codec that round-trips), and when `v == ref` the encoding is exactly one
zero bit; likewise for `EnumTypeStreamer`.  The bool overload
`Bitstream::writeDelta(bool, bool)` instead writes the value itself as the
single bit — its round trip holds, but when `v == ref == true` the bit is
one, not zero. -/
theorem c2_delta_correctness_amended {α : Type}
    (equalF : α → α → Bool) (writeRawDelta : α → α → List Bool)
    (readRawDelta : List Bool → α → Option (α × List Bool))
    (v ref : α) (tail : List Bool)
    (heq : equalF v ref = true → v = ref)
    (hraw : readRawDelta (writeRawDelta v ref ++ tail) ref = some (v, tail)) :
    (TypeStreamer.readDelta readRawDelta
        (TypeStreamer.writeDelta equalF writeRawDelta v ref ++ tail) ref
      = some (v, tail)) ∧
    (v = ref → equalF v ref = true →
      TypeStreamer.writeDelta equalF writeRawDelta v ref = [false]) ∧
    (∀ bits ev eref : Nat, ev < 2 ^ bits →
      EnumTypeStreamer.readDelta bits
          (EnumTypeStreamer.writeDelta bits ev eref ++ tail) eref
        = some (ev, tail) ∧
      (ev = eref → EnumTypeStreamer.writeDelta bits ev eref = [false])) ∧
    (∀ b bref : Bool,
      Bitstream.readDeltaBool (Bitstream.writeDeltaBool b bref ++ tail) bref
          = some (b, tail) ∧
        Bitstream.writeDeltaBool b bref = [b]) := by
  refine ⟨?_, ?_, ?_, ?_⟩
  · by_cases hc : equalF v ref = true
    · have hv := heq hc
      subst hv
      simp [TypeStreamer.writeDelta, TypeStreamer.readDelta, hc]
    · simp only [TypeStreamer.writeDelta, hc, if_neg, Bool.not_eq_true] at *
      simp [TypeStreamer.writeDelta, TypeStreamer.readDelta, hc, hraw]
  · intro hv hc
    simp [TypeStreamer.writeDelta, hc]
  · intro bits ev eref hlt
    constructor
    · by_cases hc : ev = eref
      · subst hc
        simp [EnumTypeStreamer.writeDelta, EnumTypeStreamer.readDelta]
      · simp [EnumTypeStreamer.writeDelta, EnumTypeStreamer.readDelta, hc,
          take_toBitsLE_append, drop_toBitsLE_append, ofBitsLE_toBitsLE_of_lt hlt]
    · intro hc
      simp [EnumTypeStreamer.writeDelta, hc]
  · intro b bref
    exact ⟨rfl, rfl⟩

/-- Witness for C2 (amended), at `α = Nat` with the raw codec writing the
value in 32 bits: `v = 5`, `ref = 9`. -/
theorem c2_delta_correctness_amended_witness :
    (TypeStreamer.readDelta (fun l _ => some (ofBitsLE (l.take 32), l.drop 32))
        (TypeStreamer.writeDelta (fun a b => a == b) (fun a _ => toBitsLE 32 a) 5 9 ++ []) 9
      = some (5, [])) ∧
    (5 = 9 → ((5 : Nat) == 9) = true →
      TypeStreamer.writeDelta (fun a b => a == b) (fun a _ => toBitsLE 32 a) 5 9 = [false]) ∧
    (∀ bits ev eref : Nat, ev < 2 ^ bits →
      EnumTypeStreamer.readDelta bits
          (EnumTypeStreamer.writeDelta bits ev eref ++ []) eref
        = some (ev, []) ∧
      (ev = eref → EnumTypeStreamer.writeDelta bits ev eref = [false])) ∧
    (∀ b bref : Bool,
      Bitstream.readDeltaBool (Bitstream.writeDeltaBool b bref ++ []) bref
          = some (b, []) ∧
        Bitstream.writeDeltaBool b bref = [b]) :=
  c2_delta_correctness_amended (fun a b => a == b) (fun a _ => toBitsLE 32 a)
    (fun l _ => some (ofBitsLE (l.take 32), l.drop 32)) 5 9 []
    (by decide)
    (by
      show some (ofBitsLE ((toBitsLE 32 5 ++ []).take 32),
          (toBitsLE 32 5 ++ []).drop 32) = some (5, [])
      rw [take_toBitsLE_append, drop_toBitsLE_append,
        ofBitsLE_toBitsLE_of_lt (by norm_num)])

/-! ### Set delta (C6)

Sets of ints are modelled as `Finset Nat`.  The reader side is taken from
`TypeReader::readRawDelta` (SET_TYPE case) and
`MappedSetTypeStreamer::readRawDelta` in `Bitstream.cpp`, which perform the
identical toggle loop. -/

/-- One reader step: `if (!remove(object, value)) insert(object, value)`. -/
def SetStreamer.toggle (s : Finset Nat) (v : Nat) : Finset Nat :=
  if v ∈ s then s.erase v else insert v s

/-- `MappedSetTypeStreamer::readRawDelta`: start from the reference, read
`addedOrRemoved`, then toggle that many transmitted elements. -/
def SetStreamer.readRawDelta (reference : Finset Nat)
    (addedOrRemoved : Nat) (elems : List Nat) : Finset Nat :=
  (elems.take addedOrRemoved).foldl SetStreamer.toggle reference

/-- Modelled from the spec: the writer side for set deltas
(`CollectionTypeStreamer<QSet<...>>::writeRawDelta`) lives in `Bitstream.h`,
which is not under `src/`.  Per spec §4.5: "emit the count of the symmetric
difference, then each element of the symmetric difference raw"
(transmission order of a `QSet` is unspecified; one enumeration is used). -/
def SetStreamer.writeRawDelta (value reference : Finset Nat) :
    Nat × List Nat :=
  ((symmDiff value reference).card, (symmDiff value reference).sort (· ≤ ·))

theorem SetStreamer.toggle_eq_symmDiff (R : Finset Nat) (x : Nat) :
    SetStreamer.toggle R x = symmDiff R {x} := by
  unfold SetStreamer.toggle
  by_cases hx : x ∈ R
  · rw [if_pos hx]
    ext y
    simp only [Finset.mem_erase, Finset.mem_symmDiff, Finset.mem_singleton]
    by_cases hy : y = x <;> simp [hy, hx]
  · rw [if_neg hx]
    ext y
    simp only [Finset.mem_insert, Finset.mem_symmDiff, Finset.mem_singleton]
    by_cases hy : y = x <;> simp [hy, hx]

theorem SetStreamer.foldl_toggle (l : List Nat) (R : Finset Nat)
    (hnd : l.Nodup) :
    l.foldl SetStreamer.toggle R = symmDiff R l.toFinset := by
  induction l generalizing R with
  | nil =>
    show R = symmDiff R ∅
    rw [← Finset.bot_eq_empty, symmDiff_bot]
  | cons x tl ih =>
    obtain ⟨hx, hnd'⟩ := List.nodup_cons.mp hnd
    rw [List.foldl_cons, ih _ hnd', SetStreamer.toggle_eq_symmDiff,
      symmDiff_assoc, List.toFinset_cons]
    refine congrArg _ ?_
    have hx' : x ∉ tl.toFinset := fun hc => hx (List.mem_toFinset.mp hc)
    ext y
    simp only [Finset.mem_symmDiff, Finset.mem_singleton, Finset.mem_insert]
    constructor
    · rintro (⟨rfl, -⟩ | ⟨h1, -⟩)
      · exact Or.inl rfl
      · exact Or.inr h1
    · rintro (rfl | h1)
      · exact Or.inl ⟨rfl, hx'⟩
      · exact Or.inr ⟨h1, fun hc => hx' (hc ▸ h1)⟩

/-! ### C6 — set delta reconstruction -/

/-- **C6** (confirmed; the writer side is modelled from the spec since
`Bitstream.h` is not under `src/`).  The set delta transmits the count and
the elements of the symmetric difference; the reader's toggle loop applied
to the reference reconstructs the new set.  The S5 instance
(`R = {a,b,c}`, `V = {a,c,d}` as `{0,1,2}` and `{0,2,3}`) transmits
count 2 and elements `{b, d} = {1, 3}`. -/
theorem c6_set_delta_reconstruction :
    (∀ R V : Finset Nat,
      SetStreamer.readRawDelta R (SetStreamer.writeRawDelta V R).1
          (SetStreamer.writeRawDelta V R).2 = V ∧
        (SetStreamer.writeRawDelta V R).1 = (symmDiff V R).card) ∧
    (SetStreamer.writeRawDelta {0, 2, 3} {0, 1, 2}).1 = 2 ∧
    (SetStreamer.writeRawDelta {0, 2, 3} {0, 1, 2}).2.toFinset = {1, 3} := by
  refine ⟨fun R V => ⟨?_, rfl⟩, by decide, ?_⟩
  · unfold SetStreamer.readRawDelta SetStreamer.writeRawDelta
    rw [List.take_of_length_le (by rw [Finset.length_sort])]
    rw [SetStreamer.foldl_toggle _ _ (Finset.sort_nodup _ _),
      Finset.sort_toFinset, symmDiff_comm V R, symmDiff_symmDiff_cancel_left]
  · show ((symmDiff ({0, 2, 3} : Finset Nat) {0, 1, 2}).sort (· ≤ ·)).toFinset = {1, 3}
    rw [Finset.sort_toFinset]
    decide

/-! ### Enum schema negotiation (C7)

An enum definition is its ordered `(key, value)` list, mirroring
`QMetaEnum`.  `QHash<int,int>` is modelled as an association list where
`insert` replaces any previous entry and `value` defaults to 0. -/

/-- `QMetaEnum::keyToValue`: −1 when the key is absent. -/
def QMetaEnum.keyToValue (e : List (String × Int)) (key : String) : Int :=
  match e.find? (fun p => p.1 == key) with
  | some p => p.2
  | none => -1

/-- `QHash<int,int>::insert`. -/
def IntHash.insert (m : List (Int × Int)) (k v : Int) : List (Int × Int) :=
  (k, v) :: m.filter (fun p => p.1 != k)

/-- `QHash<int,int>::value` (default-constructed 0 when absent). -/
def IntHash.value (m : List (Int × Int)) (k : Int) : Int :=
  match m.find? (fun p => p.1 == k) with
  | some p => p.2
  | none => 0

/-- `EnumTypeStreamer::getBits()`: width of the highest enum value. -/
def EnumTypeStreamer.getBits (e : List (String × Int)) : Nat :=
  getBitsForHighestValue ((e.foldl (fun h (p : String × Int) => max p.2 h) 0).toNat)

/-- The `TypeReader` produced for a peer enum: either the exact local
streamer or a `(bits, peer-value → local-value)` remapping shim. -/
inductive EnumTypeReader where
  | exact
  | mapped (bits : Nat) (mappings : List (Int × Int))
deriving Repr, DecidableEq

/-- The `ENUM_TYPE`/`FULL_METADATA` branch of
`Bitstream::operator>(TypeReader&)`: read the peer `(key, value)` pairs,
build the peer-value→local-value map by name lookup, track the highest
peer value, and fall back to a mapped reader unless every pair matches the
local definition exactly. -/
def Bitstream.readEnumTypeReaderFull (localEnum peerPairs : List (String × Int)) :
    EnumTypeReader :=
  let acc := peerPairs.foldl
    (fun (a : List (Int × Int) × Bool × Int) (p : String × Int) =>
      let localValue := QMetaEnum.keyToValue localEnum p.1
      let mappings := if localValue ≠ -1 then IntHash.insert a.1 p.2 localValue else a.1
      (mappings, a.2.1 && (p.2 == localValue), max p.2 a.2.2))
    ([], peerPairs.length == localEnum.length, 0)
  if acc.2.1 then EnumTypeReader.exact
  else EnumTypeReader.mapped (getBitsForHighestValue acc.2.2.toNat) acc.1

/-- The `ENUM_TYPE`/`HASH_METADATA` branch: read the peer bit width and
hash; on hash mismatch keep an empty mapping.  The MD5 of the `(key,
value)` records is modelled as injective on its input, so the hashes are
compared as the record lists themselves (spec §9: any stable 128-bit hash
suffices; collisions are not modelled). -/
def Bitstream.readEnumTypeReaderHash (localEnum : List (String × Int))
    (peerBits : Nat) (peerEnumData : List (String × Int)) : EnumTypeReader :=
  if localEnum = peerEnumData then EnumTypeReader.exact
  else EnumTypeReader.mapped peerBits []

/-- `EnumTypeStreamer::setEnumValue(object, value, mappings)`: flag enums
OR together the mapped bits, plain enums look the value up (0 when
unmapped).  The bitwise branch is stated on the nonnegative enum values
the codec transmits. -/
def EnumTypeStreamer.setEnumValue (isFlag : Bool) (mappings : List (Int × Int))
    (value : Int) : Int :=
  if isFlag then
    Int.ofNat (mappings.foldl
      (fun combined p =>
        if value.toNat &&& p.1.toNat ≠ 0 then combined ||| p.2.toNat else combined) 0)
  else IntHash.value mappings value

/-- `MappedEnumTypeStreamer::read`: read `_bits` bits, then remap. -/
def MappedEnumTypeStreamer.read (isFlag : Bool) (bits : Nat)
    (mappings : List (Int × Int)) (l : List Bool) : Int × List Bool :=
  (EnumTypeStreamer.setEnumValue isFlag mappings (Int.ofNat (ofBitsLE (l.take bits))),
    l.drop bits)

/-- `TypeReader::read` dispatch for enums: the exact reader uses the local
`EnumTypeStreamer::read` (`getBits()` bits, unmapped), otherwise the
mapped shim. -/
def EnumTypeReader.decode (isFlag : Bool) (r : EnumTypeReader)
    (localEnum : List (String × Int)) (l : List Bool) : Int × List Bool :=
  match r with
  | EnumTypeReader.exact =>
    (Int.ofNat (ofBitsLE (l.take (EnumTypeStreamer.getBits localEnum))),
      l.drop (EnumTypeStreamer.getBits localEnum))
  | EnumTypeReader.mapped bits mappings =>
    MappedEnumTypeStreamer.read isFlag bits mappings l

/-- Scenario S3's peer enum `Color {RED=0, GREEN=1, BLUE=2}`. -/
def peerColor : List (String × Int) := [("RED", 0), ("GREEN", 1), ("BLUE", 2)]

/-- Scenario S3's local enum `Color {RED=0, BLUE=1, GREEN=2}`. -/
def localColor : List (String × Int) := [("RED", 0), ("BLUE", 1), ("GREEN", 2)]

/-! ### C7 — enum remap, scenario S3 -/

/-- **C7** (confirmed).  With the S3 enums, Full metadata builds the
name-based map `{0→0, 1→2, 2→1}` over 2 bits, so a peer-encoded `GREEN`
(peer value 1, sent in the peer's 2 bits) decodes to local value 2; under
Hash metadata the hashes differ, the mapping is empty, and the same wire
value decodes to 0. -/
theorem c7_enum_remap_s3 :
    EnumTypeStreamer.getBits peerColor = 2 ∧
    Bitstream.readEnumTypeReaderFull localColor peerColor
        = EnumTypeReader.mapped 2 [(2, 1), (1, 2), (0, 0)] ∧
    EnumTypeReader.decode false
        (Bitstream.readEnumTypeReaderFull localColor peerColor) localColor
        (toBitsLE (EnumTypeStreamer.getBits peerColor) 1)
      = (2, []) ∧
    Bitstream.readEnumTypeReaderHash localColor
        (EnumTypeStreamer.getBits peerColor) peerColor
      = EnumTypeReader.mapped 2 [] ∧
    EnumTypeReader.decode false
        (Bitstream.readEnumTypeReaderHash localColor
          (EnumTypeStreamer.getBits peerColor) peerColor) localColor
        (toBitsLE (EnumTypeStreamer.getBits peerColor) 1)
      = (0, []) := by
  refine ⟨by decide, by decide, by decide, by decide, by decide⟩

/-! ### QVariant writing (C8)

`Bitstream::operator<<(const QVariant&)` models the `QVariant` as `none`
(invalid) or `some t` (valid, with user type `t`); the registry is the set
of user types with a registered `TypeStreamer`.  The calls the operator
makes on its collaborators are recorded as wire events: the null
type-descriptor sentinel (`_typeStreamerStreamer << NULL`), the interned
streamer reference, and the payload write. -/

inductive VarWriteEvent where
  | nullTypeSentinel
  | typeStreamerRef (t : Nat)
  | payload (t : Nat)
deriving Repr, DecidableEq

/-- `Bitstream::operator<<(const QVariant&)`: invalid variants emit the
null-streamer sentinel; registered types emit the streamer reference and
payload; unregistered types only log a warning (returned as the flag) and
emit nothing. -/
def Bitstream.writeVariant (registry : List Nat) (v : Option Nat) :
    List VarWriteEvent × Bool :=
  match v with
  | none => ([VarWriteEvent.nullTypeSentinel], false)
  | some t =>
    if t ∈ registry then ([VarWriteEvent.typeStreamerRef t, VarWriteEvent.payload t], false)
    else ([], true)

/-! ### C8 — NonStreamableType behavior -/

/-- **C8** (corrected): writing a valid `QVariant` whose user type has no
registered streamer emits *nothing* — in particular not the empty-type
sentinel the claim requires (which only the invalid-variant branch
emits). -/
theorem c8_nonstreamable_counterexample :
    (Bitstream.writeVariant [] (some 42)).1 = [] ∧
      (Bitstream.writeVariant [] (some 42)).2 = true ∧
      (Bitstream.writeVariant [] (some 42)).1 ≠ [VarWriteEvent.nullTypeSentinel] := by
  refine ⟨rfl, rfl, ?_⟩
  intro h
  simp [Bitstream.writeVariant] at h

/-- **C8** (amended).  For every `QVariant` whose user type has no
registered streamer, `operator<<` logs a warning and emits nothing to the
stream; the empty-type sentinel is emitted exactly for invalid
`QVariant`s. -/
theorem c8_nonstreamable_amended (registry : List Nat) (t : Nat)
    (h : t ∉ registry) :
    Bitstream.writeVariant registry (some t) = ([], true) ∧
      Bitstream.writeVariant registry none
        = ([VarWriteEvent.nullTypeSentinel], false) := by
  constructor
  · simp [Bitstream.writeVariant, h]
  · rfl

/-- Witness for C8 (amended): type 42 against an empty registry. -/
theorem c8_nonstreamable_amended_witness :
    Bitstream.writeVariant [] (some 42) = ([], true) ∧
      Bitstream.writeVariant [] none = ([VarWriteEvent.nullTypeSentinel], false) :=
  c8_nonstreamable_amended [] 42 (by decide)

/-! ### QScriptValue serialization (C1)

The script-value kind dispatch of `Bitstream::operator<<(const
QScriptValue&)` / `operator>>(QScriptValue&)` is embedded over a deep
script-value type covering the kinds whose payload codecs are in
`Bitstream.cpp`; the opaque QObject payload (`*this <<
value.toQObject()`, which runs through the class-descriptor interning and
the reflection collaborator of spec §6) is abstracted to a fixed 32-bit
id.  Numbers carry their 64-bit pattern, strings their UTF-16 code
units.  The reader takes the prior contents of the `value` reference as
an argument, because two cases of the C++ switch leave it unassigned. -/

inductive ScriptValue where
  | invalid
  | undefinedV
  | nullV
  | boolV (b : Bool)
  | numberV (pattern : Nat)
  | stringV (s : List Nat)
  | qobjectV (o : Nat)
  | arrayV (elems : List ScriptValue)

mutual

/-- `Bitstream::operator<<(const QScriptValue&)`: the 4-bit kind tag
(`UNDEFINED=1, NULL=2, BOOL=3, NUMBER=4, STRING=5, QOBJECT=7, ARRAY=11,
INVALID=0`) followed by the kind payload. -/
def scriptValueWrite : ScriptValue → List Bool
  | ScriptValue.invalid => toBitsLE 4 0
  | ScriptValue.undefinedV => toBitsLE 4 1
  | ScriptValue.nullV => toBitsLE 4 2
  | ScriptValue.boolV b => toBitsLE 4 3 ++ [b]
  | ScriptValue.numberV p => toBitsLE 4 4 ++ toBitsLE 64 p
  | ScriptValue.stringV s =>
    toBitsLE 4 5 ++ toBitsLE 32 s.length ++ s.flatMap (toBitsLE 16)
  | ScriptValue.qobjectV o => toBitsLE 4 7 ++ toBitsLE 32 o
  | ScriptValue.arrayV es =>
    toBitsLE 4 11 ++ toBitsLE 32 es.length ++ scriptValueWriteList es

def scriptValueWriteList : List ScriptValue → List Bool
  | [] => []
  | e :: tl => scriptValueWrite e ++ scriptValueWriteList tl

end

/-- Read `n` UTF-16 code units of 16 bits each. -/
def readChars : Nat → List Bool → Option (List Nat × List Bool)
  | 0, l => some ([], l)
  | n + 1, l =>
    if l.length < 16 then none
    else
      match readChars n (l.drop 16) with
      | some (cs, r) => some (ofBitsLE (l.take 16) :: cs, r)
      | none => none

mutual

/-- `Bitstream::operator>>(QScriptValue&)`: dispatch on the 4-bit kind
tag.  `prior` is the current content of the `value` reference the C++
operator receives; the `QOBJECT_SCRIPT_VALUE` case parses the object but
discards the `newQObject` result without assigning `value`, so it returns
`prior` unchanged — every other case assigns.  Structural fuel bounds the
recursion depth. -/
def scriptValueRead : Nat → List Bool → ScriptValue → Option (ScriptValue × List Bool)
  | 0, _, _ => none
  | fuel + 1, l, prior =>
    if l.length < 4 then none
    else
      let tag := ofBitsLE (l.take 4)
      let rest := l.drop 4
      if tag = 1 then some (ScriptValue.undefinedV, rest)
      else if tag = 2 then some (ScriptValue.nullV, rest)
      else if tag = 3 then
        match rest with
        | [] => none
        | b :: r => some (ScriptValue.boolV b, r)
      else if tag = 4 then
        if rest.length < 64 then none
        else some (ScriptValue.numberV (ofBitsLE (rest.take 64)), rest.drop 64)
      else if tag = 5 then
        if rest.length < 32 then none
        else
          match readChars (ofBitsLE (rest.take 32)) (rest.drop 32) with
          | some (cs, r) => some (ScriptValue.stringV cs, r)
          | none => none
      else if tag = 7 then
        if rest.length < 32 then none
        else some (prior, rest.drop 32)
      else if tag = 11 then
        if rest.length < 32 then none
        else
          match scriptValueReadElems fuel (ofBitsLE (rest.take 32)) (rest.drop 32) with
          | some (es, r) => some (ScriptValue.arrayV es, r)
          | none => none
      else some (ScriptValue.invalid, rest)

/-- The array element loop: each element is read into a freshly
default-constructed `QScriptValue element` (i.e. `invalid`). -/
def scriptValueReadElems : Nat → Nat → List Bool → Option (List ScriptValue × List Bool)
  | 0, _, _ => none
  | _ + 1, 0, l => some ([], l)
  | fuel + 1, n + 1, l =>
    match scriptValueRead fuel l ScriptValue.invalid with
    | some (e, r) =>
      match scriptValueReadElems fuel n r with
      | some (es, r') => some (e :: es, r')
      | none => none
    | none => none

end

/-! ### C1 — round-trip identity -/

/-- **C1** (code_bug).  Round-trip identity fails for script values of
kind tag `QOBJECT_SCRIPT_VALUE`: the reader's switch case parses the
object payload but discards the `newQObject` result without assigning
`value` (unlike every sibling case), so decoding the encoding of a
QObject script value leaves the output at its prior (invalid) content
instead of the encoded value. -/
theorem c1_script_qobject_read_drops_value :
    scriptValueWrite (ScriptValue.qobjectV 5) = toBitsLE 4 7 ++ toBitsLE 32 5 ∧
      scriptValueRead 1 (scriptValueWrite (ScriptValue.qobjectV 5)) ScriptValue.invalid
        = some (ScriptValue.invalid, []) ∧
      ScriptValue.invalid ≠ ScriptValue.qobjectV 5 := by
  refine ⟨rfl, rfl, fun h => ScriptValue.noConfusion h⟩

/-! ### Writer cursor invariant and stream abstraction

A writer in a reachable state satisfies `WInv`: the cursor is in `[0,8)`
and the accumulator holds bits below the cursor only.  `wStream` is the
total bit sequence the writer has produced: the emitted bytes followed by
the pending accumulator bits. -/

def WInv (s : WriteState) : Prop := s.position < 8 ∧ s.byte < 2 ^ s.position

def wStream (s : WriteState) : List Bool :=
  bytesBits s.out ++ (List.range s.position).map s.byte.testBit

theorem bytesBits_append (xs ys : List Nat) :
    bytesBits (xs ++ ys) = bytesBits xs ++ bytesBits ys := by
  simp [bytesBits]

theorem bytesBits_length (xs : List Nat) :
    (bytesBits xs).length = 8 * xs.length := by
  induction xs with
  | nil => rfl
  | cons x tl ih =>
    show (byteBits x ++ bytesBits tl).length = 8 * (tl.length + 1)
    simp only [List.length_append, ih]
    have hx : (byteBits x).length = 8 := by simp [byteBits, toBitsLE]
    omega

theorem wStream_length (s : WriteState) :
    (wStream s).length = 8 * s.out.length + s.position := by
  simp [wStream, bytesBits_length]

theorem range_map_succ_last (n : Nat) (f : Nat → Bool) :
    (List.range (n + 1)).map f = (List.range n).map f ++ [f n] := by
  rw [List.range_succ, List.map_append, List.map_singleton]

/-- One `operator<<(bool)` step appends one bit to the writer's stream and
preserves the invariant. -/
theorem Bitstream.writeBool_spec (s : WriteState) (b : Bool) (h : WInv s) :
    WInv (Bitstream.writeBool s b) ∧
      wStream (Bitstream.writeBool s b) = wStream s ++ [b] := by
  obtain ⟨hp, hb⟩ := h
  have hbyte' :
      (if b then s.byte ||| (1 <<< s.position) else s.byte) < 2 ^ (s.position + 1) := by
    have h1 : s.byte < 2 ^ (s.position + 1) :=
      lt_of_lt_of_le hb (Nat.pow_le_pow_right (by norm_num) (by omega))
    cases b with
    | false => simpa using h1
    | true =>
      have h2 : (1 <<< s.position) < 2 ^ (s.position + 1) := by
        rw [Nat.shiftLeft_eq, one_mul]
        exact Nat.pow_lt_pow_right (by norm_num) (by omega)
      simpa using Nat.or_lt_two_pow h1 h2
  have hbits :
      (List.range (s.position + 1)).map
          (if b then s.byte ||| (1 <<< s.position) else s.byte).testBit
        = (List.range s.position).map s.byte.testBit ++ [b] := by
    rw [range_map_succ_last]
    have hlow : ∀ i ∈ List.range s.position,
        (if b then s.byte ||| (1 <<< s.position) else s.byte).testBit i
          = s.byte.testBit i := by
      intro i hi
      have hi' : i < s.position := List.mem_range.mp hi
      cases b with
      | false => rfl
      | true =>
        simp only [if_true]
        rw [Nat.testBit_or, Nat.shiftLeft_eq, one_mul, Nat.testBit_two_pow]
        simp [Nat.ne_of_gt hi']
    have hhi :
        (if b then s.byte ||| (1 <<< s.position) else s.byte).testBit s.position = b := by
      have hfalse : s.byte.testBit s.position = false := Nat.testBit_eq_false_of_lt hb
      cases b with
      | false => simpa using hfalse
      | true =>
        simp only [if_true]
        rw [Nat.testBit_or, Nat.shiftLeft_eq, one_mul, Nat.testBit_two_pow, hfalse]
        simp
    rw [List.map_congr_left hlow, hhi]
  unfold Bitstream.writeBool
  by_cases h8 : s.position + 1 = 8
  · rw [if_pos h8]
    constructor
    · exact ⟨by norm_num, by norm_num⟩
    · show bytesBits (s.out ++ [_]) ++ [] = wStream s ++ [b]
      rw [bytesBits_append, List.append_nil]
      show bytesBits s.out ++ byteBits _ = wStream s ++ [b]
      have : byteBits (if b then s.byte ||| (1 <<< s.position) else s.byte)
          = (List.range (s.position + 1)).map
              (if b then s.byte ||| (1 <<< s.position) else s.byte).testBit := by
        rw [h8]; rfl
      rw [this, hbits, wStream, List.append_assoc]
  · rw [if_neg h8]
    refine ⟨⟨?_, hbyte'⟩, ?_⟩
    · show s.position + 1 < 8
      omega
    · show bytesBits s.out ++ (List.range (s.position + 1)).map _ = wStream s ++ [b]
      rw [hbits, wStream, List.append_assoc]

/-- Folding `operator<<(bool)` over a bit list appends it to the stream. -/
theorem Bitstream.writeBools_spec (l : List Bool) :
    ∀ s : WriteState, WInv s →
      WInv (Bitstream.writeBools s l) ∧
        wStream (Bitstream.writeBools s l) = wStream s ++ l := by
  induction l with
  | nil => intro s h; exact ⟨h, by simp [Bitstream.writeBools]⟩
  | cons b tl ih =>
    intro s h
    obtain ⟨h1, h2⟩ := Bitstream.writeBool_spec s b h
    obtain ⟨h3, h4⟩ := ih (Bitstream.writeBool s b) h1
    refine ⟨h3, ?_⟩
    show wStream (Bitstream.writeBools (Bitstream.writeBool s b) tl) = wStream s ++ b :: tl
    rw [h4, h2, List.append_assoc]
    rfl

/-- Flushing emits the whole stream padded to a byte boundary with zeros. -/
theorem Bitstream.flush_spec (s : WriteState) (h : WInv s) :
    bytesBits (Bitstream.flush s).out
        = wStream s ++ List.replicate ((8 - s.position) % 8) false ∧
      (Bitstream.flush s).position = 0 ∧ (Bitstream.flush s).byte = 0 := by
  obtain ⟨hp, hb⟩ := h
  unfold Bitstream.flush
  by_cases h0 : s.position = 0
  · rw [if_pos h0]
    refine ⟨?_, h0, ?_⟩
    · rw [wStream, h0]
      simp
    · rw [h0] at hb
      exact Nat.lt_one_iff.mp (by simpa using hb)
  · rw [if_neg h0]
    refine ⟨?_, rfl, rfl⟩
    show bytesBits (s.out ++ [s.byte]) = _
    rw [bytesBits_append, wStream, List.append_assoc]
    refine congrArg _ ?_
    show byteBits s.byte = _
    have hmod : (8 - s.position) % 8 = 8 - s.position := Nat.mod_eq_of_lt (by omega)
    have hsplit : List.range 8
        = List.range s.position
            ++ (List.range (8 - s.position)).map (fun x => s.position + x) := by
      conv_lhs => rw [show (8 : Nat) = s.position + (8 - s.position) by omega]
      exact List.range_add s.position (8 - s.position)
    have hfalse : ∀ i ∈ List.range (8 - s.position),
        s.byte.testBit (s.position + i) = false := by
      intro i _
      exact Nat.testBit_eq_false_of_lt
        (lt_of_lt_of_le hb (Nat.pow_le_pow_right (by norm_num) (by omega)))
    rw [hmod, byteBits, toBitsLE, hsplit, List.map_append, List.map_map]
    refine congrArg _ ?_
    have hcomp : ((fun i => s.byte.testBit i) ∘ fun x => s.position + x)
        = fun i => s.byte.testBit (s.position + i) := rfl
    rw [hcomp, List.map_congr_left hfalse]
    simp

theorem WInv_fresh : WInv WriteState.fresh := ⟨by decide, by decide⟩

theorem wStream_fresh : wStream WriteState.fresh = [] := rfl

/-- Cursor and output of a fresh writer after an `n`-bit sequence. -/
theorem Bitstream.writeBools_fresh_shape (l : List Bool) :
    (Bitstream.writeBools WriteState.fresh l).position = l.length % 8 ∧
      (Bitstream.writeBools WriteState.fresh l).out.length = l.length / 8 := by
  obtain ⟨⟨hp, _⟩, hs⟩ := Bitstream.writeBools_spec l WriteState.fresh WInv_fresh
  have hlen := congrArg List.length hs
  rw [wStream_length, wStream_fresh] at hlen
  simp only [List.nil_append, List.length_append] at hlen
  constructor <;> omega

/-! ### Reader cursor and stream abstraction

`rStream` is the bit sequence still available to a reader: the unread
bits of the current accumulator (none when the cursor is 0, since the
next read refills), followed by the bits of the unread bytes. -/

def rStream (s : ReadState) : List Bool :=
  (if s.position = 0 then []
   else (List.range (8 - s.position)).map (fun i => s.byte.testBit (s.position + i)))
    ++ bytesBits s.inp

theorem headD_drop_getD (l : List Nat) (n d : Nat) :
    (l.drop n).headD d = l.getD n d := by
  simp [List.headD_eq_head?, List.head?_drop]

theorem byteBits_cons_shape (x : Nat) :
    byteBits x = x.testBit 0 :: (List.range 7).map (fun i => x.testBit (i + 1)) := by
  show (List.range 8).map x.testBit = _
  rw [List.range_succ_eq_map, List.map_cons, List.map_map]
  rfl

/-- One `operator>>(bool&)` step consumes the head of the reader's
stream. -/
theorem Bitstream.readBool_spec (s : ReadState) (hp : s.position < 8)
    (hne : rStream s ≠ []) :
    (Bitstream.readBool s).1 = (rStream s).headD false ∧
      rStream (Bitstream.readBool s).2 = (rStream s).tail ∧
      (Bitstream.readBool s).2.position = (s.position + 1) % 8 := by
  by_cases h0 : s.position = 0
  · have hsr : rStream s = bytesBits s.inp := by
      rw [rStream, if_pos h0, List.nil_append]
    cases hinp : s.inp with
    | nil =>
      exfalso
      exact hne (by rw [hsr, hinp]; rfl)
    | cons x tl =>
      have hbit : Bitstream.readBool s
          = (x.testBit 0, ⟨x, 1, tl⟩) := by
        unfold Bitstream.readBool
        rw [if_pos h0, hinp]
        rfl
      rw [hbit, hsr, hinp]
      show x.testBit 0 = (byteBits x ++ bytesBits tl).headD false ∧
        rStream ⟨x, 1, tl⟩ = (byteBits x ++ bytesBits tl).tail ∧ 1 = (s.position + 1) % 8
      rw [byteBits_cons_shape]
      refine ⟨rfl, ?_, by omega⟩
      show (List.range 7).map (fun i => x.testBit (1 + i)) ++ bytesBits tl = _
      rw [List.cons_append, List.tail_cons]
      refine congrArg (· ++ bytesBits tl) ?_
      exact List.map_congr_left fun i _ => congrArg x.testBit (by omega)
  · have hshape : rStream s
        = s.byte.testBit s.position
            :: ((List.range (8 - s.position - 1)).map
                  (fun i => s.byte.testBit (s.position + (i + 1))) ++ bytesBits s.inp) := by
      rw [rStream, if_neg h0]
      have h81 : 8 - s.position = (8 - s.position - 1) + 1 := by omega
      rw [h81, List.range_succ_eq_map, List.map_cons, List.map_map]
      simp only [Nat.add_zero, List.cons_append]
      rfl
    have hb1 : Bitstream.readBool s
        = (s.byte.testBit s.position, ⟨s.byte, (s.position + 1) % 8, s.inp⟩) := by
      unfold Bitstream.readBool
      rw [if_neg h0]
    rw [hb1, hshape]
    refine ⟨rfl, ?_, rfl⟩
    have rStream_mk : ∀ (b p : Nat) (inp : List Nat), rStream ⟨b, p, inp⟩
        = (if p = 0 then []
           else (List.range (8 - p)).map (fun i => b.testBit (p + i))) ++ bytesBits inp :=
      fun _ _ _ => rfl
    by_cases h7 : s.position = 7
    · rw [List.tail_cons, h7]
      show rStream ⟨s.byte, (7 + 1) % 8, s.inp⟩
          = (List.range (8 - 7 - 1)).map (fun i => s.byte.testBit (7 + (i + 1)))
              ++ bytesBits s.inp
      rw [rStream_mk]
      simp
    · have hmod : (s.position + 1) % 8 = s.position + 1 := Nat.mod_eq_of_lt (by omega)
      rw [List.tail_cons]
      show rStream ⟨s.byte, (s.position + 1) % 8, s.inp⟩ = _
      rw [rStream_mk, hmod, if_neg (by omega : ¬(s.position + 1 = 0))]
      refine congrArg (· ++ bytesBits s.inp) ?_
      have hr : 8 - (s.position + 1) = 8 - s.position - 1 := by omega
      rw [hr]
      exact List.map_congr_left fun i _ => congrArg s.byte.testBit (by omega)

/-- Iterating `operator>>(bool&)` `n` times consumes the first `n` stream
bits. -/
theorem Bitstream.readBools_spec (n : Nat) :
    ∀ s : ReadState, s.position < 8 → n ≤ (rStream s).length →
      (Bitstream.readBools s n).1 = (rStream s).take n ∧
        rStream (Bitstream.readBools s n).2 = (rStream s).drop n ∧
        (Bitstream.readBools s n).2.position = (s.position + n) % 8 := by
  induction n with
  | zero =>
    intro s hp _
    exact ⟨by simp [Bitstream.readBools], by simp [Bitstream.readBools],
      by simp [Bitstream.readBools, Nat.mod_eq_of_lt hp]⟩
  | succ k ih =>
    intro s hp hlen
    have hne : rStream s ≠ [] := by
      intro hc
      rw [hc] at hlen
      simp at hlen
    obtain ⟨h1, h2, h3⟩ := Bitstream.readBool_spec s hp hne
    have hp' : (Bitstream.readBool s).2.position < 8 := by
      rw [h3]; omega
    have hlen' : k ≤ (rStream (Bitstream.readBool s).2).length := by
      rw [h2, List.length_tail]
      omega
    obtain ⟨g1, g2, g3⟩ := ih (Bitstream.readBool s).2 hp' hlen'
    obtain ⟨c, t, hct⟩ := List.exists_cons_of_ne_nil hne
    refine ⟨?_, ?_, ?_⟩
    · show (Bitstream.readBool s).1 :: (Bitstream.readBools (Bitstream.readBool s).2 k).1
          = (rStream s).take (k + 1)
      rw [g1, h1, h2, hct]
      rfl
    · show rStream (Bitstream.readBools (Bitstream.readBool s).2 k).2 = (rStream s).drop (k + 1)
      rw [g2, h2, hct]
      rfl
    · show (Bitstream.readBools (Bitstream.readBool s).2 k).2.position = (s.position + (k + 1)) % 8
      rw [g3, h3]
      omega

/-- Reading `n + 1` booleans is reading `n` and then one more. -/
theorem Bitstream.readBools_succ (n : Nat) :
    ∀ s : ReadState, Bitstream.readBools s (n + 1)
      = ((Bitstream.readBools s n).1
            ++ [(Bitstream.readBool (Bitstream.readBools s n).2).1],
         (Bitstream.readBool (Bitstream.readBools s n).2).2) := by
  induction n with
  | zero => intro s; rfl
  | succ k ih =>
    intro s
    show ((Bitstream.readBool s).1 :: (Bitstream.readBools (Bitstream.readBool s).2 (k + 1)).1,
        (Bitstream.readBools (Bitstream.readBool s).2 (k + 1)).2) = _
    rw [ih (Bitstream.readBool s).2]
    rfl

/-- The reader's full cursor state after `n` single-bit reads from a fresh
reader: the accumulator holds the byte containing the last bit read, the
cursor is `n % 8`, and `⌈n/8⌉` bytes have been consumed. -/
theorem Bitstream.readBools_fresh_state (B : List Nat) (n : Nat) :
    (Bitstream.readBools (ReadState.fresh B) n).2
      = ⟨if n = 0 then 0 else B.getD ((n - 1) / 8) 0, n % 8, B.drop ((n + 7) / 8)⟩ := by
  induction n with
  | zero => rfl
  | succ k ih =>
    rw [Bitstream.readBools_succ, ih]
    by_cases hk : k % 8 = 0
    · have h1 : Bitstream.readBool
          ⟨if k = 0 then 0 else B.getD ((k - 1) / 8) 0, k % 8, B.drop ((k + 7) / 8)⟩
          = ((B.drop ((k + 7) / 8)).headD 0 |>.testBit 0,
             ⟨(B.drop ((k + 7) / 8)).headD 0, 1, (B.drop ((k + 7) / 8)).tail⟩) := by
        unfold Bitstream.readBool
        rw [if_pos hk]
        rfl
      rw [h1]
      simp only [ReadState.mk.injEq]
      refine ⟨?_, by omega, ?_⟩
      · rw [headD_drop_getD]
        have : (k + 7) / 8 = (k + 1 - 1) / 8 := by omega
        rw [this]
        simp
      · rw [List.tail_drop]
        refine congrArg B.drop ?_
        omega
    · have h1 : Bitstream.readBool
          ⟨if k = 0 then 0 else B.getD ((k - 1) / 8) 0, k % 8, B.drop ((k + 7) / 8)⟩
          = ((if k = 0 then 0 else B.getD ((k - 1) / 8) 0).testBit (k % 8),
             ⟨if k = 0 then 0 else B.getD ((k - 1) / 8) 0, (k % 8 + 1) % 8,
               B.drop ((k + 7) / 8)⟩) := by
        unfold Bitstream.readBool
        rw [if_neg hk]
      rw [h1]
      simp only [ReadState.mk.injEq]
      have hk0 : ¬ k = 0 := by omega
      refine ⟨?_, by omega, ?_⟩
      · rw [if_neg hk0, if_neg (by omega : ¬ k + 1 = 0)]
        refine congrArg (fun j => B.getD j 0) ?_
        omega
      · refine congrArg B.drop ?_
        omega

/-! ### C9 — bit-boundary exactness -/

/-- **C9** (corrected): after the matched pair "write the byte 0x01 as 8
bits, flush, read 8 bits", the positions agree (both 0) but the writer's
accumulator was reset to 0 by the flush while the reader retains the byte
1 it just read — the cursor states are not identical. -/
theorem c9_cursor_state_counterexample :
    (Bitstream.write WriteState.fresh [1] 8 0).position = 0 ∧
      (Bitstream.write WriteState.fresh [1] 8 0).byte = 0 ∧
      (Bitstream.read (ReadState.fresh
          (Bitstream.flush (Bitstream.write WriteState.fresh [1] 8 0)).out) [0] 8 0).1.position
        = 0 ∧
      (Bitstream.read (ReadState.fresh
          (Bitstream.flush (Bitstream.write WriteState.fresh [1] 8 0)).out) [0] 8 0).1.byte
        = 1 ∧
      (1 : Nat) ≠ 0 := by
  refine ⟨rfl, rfl, rfl, rfl, by decide⟩

/-- **C9** (amended).  After a matched pair in which a fresh writer
produces the bit sequence `l` (flushed at the end) and a fresh reader
consumes exactly those `l.length` bits, the two cursors' positions are
identical (both `l.length % 8`); whenever the bit count is not a multiple
of 8 the accumulator bytes are identical as well, while at byte-aligned
boundaries the writer's accumulator has been reset to `(0, 0)` but the
reader retains the last byte read. -/
theorem c9_cursor_state_amended (l : List Bool) :
    (Bitstream.readBools (ReadState.fresh
        (Bitstream.flush (Bitstream.writeBools WriteState.fresh l)).out) l.length).2.position
      = (Bitstream.writeBools WriteState.fresh l).position ∧
    (l.length % 8 ≠ 0 →
      (Bitstream.readBools (ReadState.fresh
          (Bitstream.flush (Bitstream.writeBools WriteState.fresh l)).out) l.length).2.byte
        = (Bitstream.writeBools WriteState.fresh l).byte) ∧
    (l.length % 8 = 0 →
      (Bitstream.writeBools WriteState.fresh l).byte = 0 ∧
        (Bitstream.writeBools WriteState.fresh l).position = 0) := by
  obtain ⟨hpos, hout⟩ := Bitstream.writeBools_fresh_shape l
  obtain ⟨⟨hp8, hbyte⟩, -⟩ := Bitstream.writeBools_spec l WriteState.fresh WInv_fresh
  rw [Bitstream.readBools_fresh_state]
  refine ⟨by rw [hpos], ?_, ?_⟩
  · intro hne
    have hn0 : ¬ l.length = 0 := by omega
    rw [if_neg hn0]
    have hflush : Bitstream.flush (Bitstream.writeBools WriteState.fresh l)
        = ⟨0, 0, (Bitstream.writeBools WriteState.fresh l).out
            ++ [(Bitstream.writeBools WriteState.fresh l).byte]⟩ := by
      unfold Bitstream.flush
      rw [if_neg (by omega : ¬ (Bitstream.writeBools WriteState.fresh l).position = 0)]
    rw [hflush]
    show ((Bitstream.writeBools WriteState.fresh l).out
        ++ [(Bitstream.writeBools WriteState.fresh l).byte]).getD ((l.length - 1) / 8) 0 = _
    have hidx : (l.length - 1) / 8 = (Bitstream.writeBools WriteState.fresh l).out.length := by
      omega
    rw [hidx]
    simp
  · intro hz
    have : (Bitstream.writeBools WriteState.fresh l).position = 0 := by omega
    rw [this] at hbyte
    exact ⟨by simpa using Nat.lt_one_iff.mp (by simpa using hbyte), this⟩

/-- Witness for C9 (amended): the three-bit sequence `1,1,0`. -/
theorem c9_cursor_state_amended_witness :
    (Bitstream.readBools (ReadState.fresh
        (Bitstream.flush (Bitstream.writeBools WriteState.fresh [true, true, false])).out)
        [true, true, false].length).2.position
      = (Bitstream.writeBools WriteState.fresh [true, true, false]).position ∧
    ([true, true, false].length % 8 ≠ 0 →
      (Bitstream.readBools (ReadState.fresh
          (Bitstream.flush (Bitstream.writeBools WriteState.fresh [true, true, false])).out)
          [true, true, false].length).2.byte
        = (Bitstream.writeBools WriteState.fresh [true, true, false]).byte) ∧
    ([true, true, false].length % 8 = 0 →
      (Bitstream.writeBools WriteState.fresh [true, true, false]).byte = 0 ∧
        (Bitstream.writeBools WriteState.fresh [true, true, false]).position = 0) :=
  c9_cursor_state_amended [true, true, false]

/-! ### Chunked writes coincide with bit-at-a-time writes

`Bitstream::write` packs up to `8 - position` bits per iteration with a
single shift-or; these lemmas show each chunk equals the fold of
`operator<<(bool)` over the chunk's bits, connecting the loop to the
stream abstraction. -/

theorem chunk_or_step (B c p k : Nat) :
    (if c.testBit 0 then B ||| (1 <<< p) else B)
        ||| (((c / 2) &&& (2 ^ k - 1)) <<< (p + 1))
      = B ||| ((c &&& (2 ^ (k + 1) - 1)) <<< p) := by
  have hif : (if c.testBit 0 then B ||| (1 <<< p) else B)
      = B ||| ((if c.testBit 0 then 1 else 0) <<< p) := by
    cases hc : c.testBit 0 <;> simp
  rw [hif, Nat.or_assoc]
  refine congrArg (B ||| ·) ?_
  apply Nat.eq_of_testBit_eq
  intro j
  simp only [Nat.testBit_or, Nat.testBit_shiftLeft, Nat.testBit_and,
    Nat.testBit_two_pow_sub_one]
  rcases Nat.lt_trichotomy j p with hj | hj | hj
  · simp [Nat.not_le.mpr hj, show ¬ (p + 1 ≤ j) by omega]
  · subst hj
    have h1 : ¬ (j + 1 ≤ j) := by omega
    have h2 : j - j = 0 := by omega
    cases hc : c.testBit 0 <;>
      simp [h1, h2, Nat.testBit_zero, hc, Nat.succ_pos]
  · have h1 : p ≤ j := by omega
    have h2 : p + 1 ≤ j := by omega
    have h4 : (if c.testBit 0 then 1 else 0 : Nat).testBit (j - p) = false := by
      cases hc : c.testBit 0
      · simp
      · have h10 : (1 : Nat) = 2 ^ 0 := rfl
        simp only [if_true]
        rw [h10, Nat.testBit_two_pow]
        simp [show ¬ (0 = j - p) by omega]
    have h5 : (c / 2).testBit (j - (p + 1)) = c.testBit (j - p) := by
      rw [← Nat.testBit_add_one]
      exact congrArg c.testBit (by omega)
    have h6 : decide (j - (p + 1) < k) = decide (j - p < k + 1) :=
      decide_eq_decide.mpr (by omega)
    rw [h4, h5, h6]
    simp [h1, h2]

/-- Folding `operator<<(bool)` over one chunk of `k ≤ 8 - position` bits of
`c` equals the loop body's single shift-or update. -/
theorem Bitstream.writeBools_chunk (k : Nat) :
    ∀ (s : WriteState) (c : Nat), s.position < 8 → s.position + k ≤ 8 →
      Bitstream.writeBools s ((List.range k).map c.testBit)
        = if s.position + k = 8
          then WriteState.mk 0 0
            (s.out ++ [s.byte ||| ((c &&& (2 ^ k - 1)) <<< s.position)])
          else WriteState.mk (s.byte ||| ((c &&& (2 ^ k - 1)) <<< s.position))
            (s.position + k) s.out := by
  induction k with
  | zero =>
    intro s c hp hpk
    rw [if_neg (by omega)]
    show s = _
    have h0 : c &&& (2 ^ 0 - 1) = 0 := by simp
    rw [h0, Nat.zero_shiftLeft, Nat.or_zero, Nat.add_zero]
  | succ k ih =>
    intro s c hp hpk
    have hlist : (List.range (k + 1)).map c.testBit
        = c.testBit 0 :: (List.range k).map (c / 2).testBit := by
      rw [List.range_succ_eq_map, List.map_cons, List.map_map]
      refine congrArg _ (List.map_congr_left fun i _ => ?_)
      exact Nat.testBit_add_one c i
    rw [hlist]
    show Bitstream.writeBools (Bitstream.writeBool s (c.testBit 0))
        ((List.range k).map (c / 2).testBit) = _
    by_cases h8 : s.position + 1 = 8
    · have hk0 : k = 0 := by omega
      subst hk0
      have hwb : Bitstream.writeBool s (c.testBit 0)
          = WriteState.mk 0 0
              (s.out ++ [if c.testBit 0 then s.byte ||| (1 <<< s.position) else s.byte]) := by
        unfold Bitstream.writeBool
        rw [if_pos h8]
      rw [hwb]
      show WriteState.mk 0 0 (s.out ++ [_]) = _
      rw [if_pos (by omega : s.position + (0 + 1) = 8)]
      refine congrArg (fun x => WriteState.mk 0 0 (s.out ++ [x])) ?_
      have hstep := chunk_or_step s.byte c s.position 0
      simpa using hstep
    · have hwb : Bitstream.writeBool s (c.testBit 0)
          = WriteState.mk (if c.testBit 0 then s.byte ||| (1 <<< s.position) else s.byte)
              (s.position + 1) s.out := by
        unfold Bitstream.writeBool
        rw [if_neg h8]
      rw [hwb]
      rw [ih (WriteState.mk (if c.testBit 0 then s.byte ||| (1 <<< s.position) else s.byte)
          (s.position + 1) s.out) (c / 2)
          (by show s.position + 1 < 8; omega)
          (by show s.position + 1 + k ≤ 8; omega)]
      dsimp only
      rw [chunk_or_step]
      by_cases hc8 : s.position + (k + 1) = 8
      · rw [if_pos (by omega : s.position + 1 + k = 8), if_pos hc8]
      · rw [if_neg (by omega : ¬ s.position + 1 + k = 8), if_neg hc8]
        have hq : s.position + 1 + k = s.position + (k + 1) := by omega
        rw [hq]

theorem getD_zero_headD (l : List Nat) : l.getD 0 0 = l.headD 0 := by
  cases l <;> rfl

theorem bufBits_split (src : List Nat) (offset bits k : Nat) (hk : k ≤ bits) :
    bufBits src offset bits
      = bufBits src offset k ++ bufBits src (offset + k) (bits - k) := by
  unfold bufBits
  conv_lhs => rw [show bits = k + (bits - k) by omega, List.range_add]
  rw [List.map_append, List.map_map]
  refine congrArg _ (List.map_congr_left fun i _ => ?_)
  exact congrArg (bufBit src) (by show offset + (k + i) = offset + k + i; omega)

theorem bufBits_first_byte (src : List Nat) (offset k : Nat) (hok : offset + k ≤ 8) :
    bufBits src offset k = (List.range k).map ((src.headD 0) >>> offset).testBit := by
  refine List.map_congr_left fun i hi => ?_
  have hi' : i < k := List.mem_range.mp hi
  show bufBit src (offset + i) = _
  rw [bufBit]
  have h1 : (offset + i) / 8 = 0 := by omega
  have h2 : (offset + i) % 8 = offset + i := by omega
  rw [h1, h2, getD_zero_headD, Nat.testBit_shiftRight]

theorem bufBits_eight (src : List Nat) (m : Nat) :
    bufBits src 8 m = bufBits src.tail 0 m := by
  refine List.map_congr_left fun i _ => ?_
  show bufBit src (8 + i) = bufBit src.tail (0 + i)
  rw [bufBit, bufBit]
  have h1 : (8 + i) / 8 = i / 8 + 1 := by omega
  have h2 : (8 + i) % 8 = i % 8 := by omega
  have h3 : (0 + i) / 8 = i / 8 := by omega
  have h4 : (0 + i) % 8 = i % 8 := by omega
  rw [h1, h2, h3, h4]
  cases src <;> rfl

theorem Bitstream.writeBool_position (t : WriteState) (b : Bool) (ht : t.position < 8) :
    (Bitstream.writeBool t b).position < 8 := by
  unfold Bitstream.writeBool
  by_cases h8 : t.position + 1 = 8
  · rw [if_pos h8]
    show (0 : Nat) < 8
    norm_num
  · rw [if_neg h8]
    show t.position + 1 < 8
    omega

theorem Bitstream.writeBools_position (l : List Bool) :
    ∀ t : WriteState, t.position < 8 → (Bitstream.writeBools t l).position < 8 := by
  induction l with
  | nil => intro t ht; exact ht
  | cons b tl ih =>
    intro t ht
    exact ih (Bitstream.writeBool t b) (Bitstream.writeBool_position t b ht)

/-- The `Bitstream::write` loop equals the fold of `operator<<(bool)` over
the source bits, whenever the fuel covers the bit count. -/
theorem Bitstream.writeLoop_eq_writeBools (fuel : Nat) :
    ∀ (s : WriteState) (src : List Nat) (bits offset : Nat),
      bits ≤ fuel → s.position < 8 → offset < 8 →
      Bitstream.writeLoop fuel s src bits offset
        = Bitstream.writeBools s (bufBits src offset bits) := by
  induction fuel with
  | zero =>
    intro s src bits offset hb hp ho
    have h0 : bits = 0 := by omega
    subst h0
    rfl
  | succ fuel ih =>
    intro s src bits offset hb hp ho
    by_cases hb0 : bits = 0
    · subst hb0
      rfl
    · have hkpos : 0 < min (8 - s.position) (min (8 - offset) bits) := by omega
      have hk8p : min (8 - s.position) (min (8 - offset) bits) ≤ 8 - s.position :=
        Nat.min_le_left _ _
      have hk8o : min (8 - s.position) (min (8 - offset) bits) ≤ 8 - offset := by
        omega
      have hkb : min (8 - s.position) (min (8 - offset) bits) ≤ bits := by
        omega
      have hstep : Bitstream.writeLoop (fuel + 1) s src bits offset
          = (if offset + min (8 - s.position) (min (8 - offset) bits) = 8 then
              Bitstream.writeLoop fuel
                (if s.position + min (8 - s.position) (min (8 - offset) bits) = 8 then
                  WriteState.mk 0 0 (s.out ++ [s.byte |||
                    ((((src.headD 0) >>> offset) &&&
                      (2 ^ min (8 - s.position) (min (8 - offset) bits) - 1)) <<< s.position)])
                else WriteState.mk (s.byte |||
                    ((((src.headD 0) >>> offset) &&&
                      (2 ^ min (8 - s.position) (min (8 - offset) bits) - 1)) <<< s.position))
                  (s.position + min (8 - s.position) (min (8 - offset) bits)) s.out)
                src.tail (bits - min (8 - s.position) (min (8 - offset) bits)) 0
            else
              Bitstream.writeLoop fuel
                (if s.position + min (8 - s.position) (min (8 - offset) bits) = 8 then
                  WriteState.mk 0 0 (s.out ++ [s.byte |||
                    ((((src.headD 0) >>> offset) &&&
                      (2 ^ min (8 - s.position) (min (8 - offset) bits) - 1)) <<< s.position)])
                else WriteState.mk (s.byte |||
                    ((((src.headD 0) >>> offset) &&&
                      (2 ^ min (8 - s.position) (min (8 - offset) bits) - 1)) <<< s.position))
                  (s.position + min (8 - s.position) (min (8 - offset) bits)) s.out)
                src (bits - min (8 - s.position) (min (8 - offset) bits))
                (offset + min (8 - s.position) (min (8 - offset) bits))) := by
        show (if bits = 0 then s else _) = _
        rw [if_neg hb0, if_neg (by omega : ¬ min (8 - s.position) (min (8 - offset) bits) = 0)]
      rw [hstep]
      set k := min (8 - s.position) (min (8 - offset) bits) with hkdef
      have hchunk := Bitstream.writeBools_chunk k s ((src.headD 0) >>> offset) hp (by omega)
      rw [← hchunk]
      rw [bufBits_split src offset bits k hkb]
      rw [show Bitstream.writeBools s
            (bufBits src offset k ++ bufBits src (offset + k) (bits - k))
          = Bitstream.writeBools (Bitstream.writeBools s (bufBits src offset k))
            (bufBits src (offset + k) (bits - k)) from List.foldl_append _ _ _ _]
      rw [bufBits_first_byte src offset k (by omega)]
      have hWpos :
          (Bitstream.writeBools s
            ((List.range k).map ((src.headD 0) >>> offset).testBit)).position < 8 :=
        Bitstream.writeBools_position _ s hp
      by_cases ho8 : offset + k = 8
      · rw [if_pos ho8]
        rw [ih _ src.tail (bits - k) 0 (by omega) hWpos (by norm_num)]
        rw [ho8, bufBits_eight]
      · rw [if_neg ho8]
        rw [ih _ src (bits - k) (offset + k) (by omega) hWpos (by omega)]

/-! ### Chunked reads: per-byte update and stream consumption -/

theorem bufBit_cons (x : Nat) (xs : List Nat) (j : Nat) :
    bufBit (x :: xs) j = if j < 8 then x.testBit j else bufBit xs (j - 8) := by
  by_cases h8 : j < 8
  · rw [if_pos h8, bufBit]
    have h1 : j / 8 = 0 := by omega
    have h2 : j % 8 = j := by omega
    rw [h1, h2]
    rfl
  · rw [if_neg h8, bufBit, bufBit]
    have h1 : j / 8 = (j - 8) / 8 + 1 := by omega
    have h2 : j % 8 = (j - 8) % 8 := by omega
    rw [h1, h2]
    rfl

theorem getD_range_map (f : Nat → Bool) (n i : Nat) (d : Bool) (h : i < n) :
    ((List.range n).map f).getD i d = f i := by
  simp [List.getD_eq_getElem?_getD, List.getElem?_map, List.getElem?_range, h]

theorem getD_append_left {a b : List Bool} {i : Nat} (d : Bool) (h : i < a.length) :
    (a ++ b).getD i d = a.getD i d := by
  simp [List.getD_eq_getElem?_getD, List.getElem?_append_left h]

theorem getD_append_right {a b : List Bool} {i : Nat} (d : Bool) (h : a.length ≤ i) :
    (a ++ b).getD i d = b.getD (i - a.length) d := by
  simp [List.getD_eq_getElem?_getD, List.getElem?_append_right h]

theorem getD_drop (l : List Bool) (m i : Nat) (d : Bool) :
    (l.drop m).getD i d = l.getD (m + i) d := by
  simp [List.getD_eq_getElem?_getD, List.getElem?_drop]

theorem range_map_drop (f : Nat → Bool) (n m : Nat) (hm : m ≤ n) :
    ((List.range n).map f).drop m = (List.range (n - m)).map (fun i => f (m + i)) := by
  conv_lhs => rw [show n = m + (n - m) by omega, List.range_add, List.map_append]
  rw [List.drop_append_of_le_length (by simp)]
  rw [show ((List.range m).map f).drop m = [] by simp]
  rw [List.nil_append, List.map_map]
  rfl

theorem testBit_ge8_false {x : Nat} (hx : x < 256) {j : Nat} (hj : 8 ≤ j) :
    x.testBit j = false := by
  refine Nat.testBit_eq_false_of_lt (lt_of_lt_of_le hx ?_)
  calc (256 : Nat) = 2 ^ 8 := by norm_num
    _ ≤ 2 ^ j := Nat.pow_le_pow_right (by norm_num) hj

/-- The destination-byte update of one `Bitstream::read` iteration: bits
`[offset, offset + bitsToRead)` receive the accumulator bits starting at
the cursor, all other bits of the byte are preserved. -/
theorem dByte_testBit (d0 byte p off btr : Nat) (hd : d0 < 256)
    (hob : off + btr ≤ 8) (j : Nat) :
    ((d0 &&& (255 ^^^ ((2 ^ btr - 1) <<< off)))
        ||| (((byte >>> p) <<< off) &&& ((2 ^ btr - 1) <<< off))).testBit j
      = if off ≤ j ∧ j < off + btr then byte.testBit (p + (j - off)) else d0.testBit j := by
  rw [show (255 : Nat) = 2 ^ 8 - 1 by norm_num]
  simp only [Nat.testBit_or, Nat.testBit_and, Nat.testBit_xor, Nat.testBit_shiftLeft,
    Nat.testBit_shiftRight, Nat.testBit_two_pow_sub_one]
  by_cases h1 : off ≤ j
  · by_cases h2 : j - off < btr
    · have h3 : j < 8 := by omega
      rw [if_pos ⟨h1, by omega⟩]
      simp [h1, h2, h3]
    · rw [if_neg (by omega)]
      by_cases h3 : j < 8
      · simp [h1, h2, h3]
      · have hd0 : d0.testBit j = false := testBit_ge8_false hd (by omega)
        simp [h1, h2, h3, hd0]
  · rw [if_neg (by omega)]
    have h3 : j < 8 ∨ d0.testBit j = false := by
      by_cases h4 : j < 8
      · exact Or.inl h4
      · exact Or.inr (testBit_ge8_false hd (by omega))
    rcases h3 with h3 | h3 <;> simp [h1, h3]

/-- The updated destination byte stays below 256. -/
theorem dByte_lt (d0 byte p off btr : Nat) (hd : d0 < 256) (hob : off + btr ≤ 8) :
    (d0 &&& (255 ^^^ ((2 ^ btr - 1) <<< off)))
        ||| (((byte >>> p) <<< off) &&& ((2 ^ btr - 1) <<< off)) < 256 := by
  have h1 : d0 &&& (255 ^^^ ((2 ^ btr - 1) <<< off)) < 256 :=
    lt_of_le_of_lt Nat.and_le_left hd
  have hmask : (2 ^ btr - 1) <<< off < 256 := by
    rw [Nat.shiftLeft_eq]
    calc (2 ^ btr - 1) * 2 ^ off < 2 ^ btr * 2 ^ off := by
          have : 0 < 2 ^ btr := pow_pos (by norm_num) btr
          have : 0 < 2 ^ off := pow_pos (by norm_num) off
          exact Nat.mul_lt_mul_of_lt_of_le (by omega) le_rfl (by omega)
      _ = 2 ^ (btr + off) := by rw [← pow_add]
      _ ≤ 2 ^ 8 := Nat.pow_le_pow_right (by norm_num) (by omega)
  have h2 : ((byte >>> p) <<< off) &&& ((2 ^ btr - 1) <<< off) < 256 :=
    lt_of_le_of_lt Nat.and_le_right hmask
  have := Nat.or_lt_two_pow (show d0 &&& (255 ^^^ ((2 ^ btr - 1) <<< off)) < 2 ^ 8 by
    simpa using h1) (show ((byte >>> p) <<< off) &&& ((2 ^ btr - 1) <<< off) < 2 ^ 8 by
    simpa using h2)
  simpa using this

/-- One unfolding of the `Bitstream::read` loop (non-trivial iteration),
with the refilled state `s1` and chunk width `k` named. -/
theorem Bitstream.readLoop_step (fuel : Nat) (s s1 : ReadState) (d : Nat)
    (dtail : List Nat) (bits offset k : Nat) (hb0 : ¬ bits = 0)
    (hs1 : (if s.position = 0 then ReadState.mk (s.inp.headD 0) 0 s.inp.tail else s) = s1)
    (hk : min (8 - s1.position) (min (8 - offset) bits) = k) (hk0 : ¬ k = 0) :
    Bitstream.readLoop (fuel + 1) s (d :: dtail) bits offset
      = (if offset + k = 8 then
          ((Bitstream.readLoop fuel ⟨s1.byte, (s1.position + k) % 8, s1.inp⟩
              dtail (bits - k) 0).1,
            ((d &&& (255 ^^^ ((2 ^ k - 1) <<< offset)))
              ||| (((s1.byte >>> s1.position) <<< offset) &&& ((2 ^ k - 1) <<< offset)))
              :: (Bitstream.readLoop fuel ⟨s1.byte, (s1.position + k) % 8, s1.inp⟩
                  dtail (bits - k) 0).2)
        else
          Bitstream.readLoop fuel ⟨s1.byte, (s1.position + k) % 8, s1.inp⟩
            (((d &&& (255 ^^^ ((2 ^ k - 1) <<< offset)))
              ||| (((s1.byte >>> s1.position) <<< offset) &&& ((2 ^ k - 1) <<< offset)))
              :: dtail)
            (bits - k) (offset + k)) := by
  subst hs1
  subst hk
  simp only [Bitstream.readLoop]
  rw [if_neg hb0, if_neg hk0]
  rfl

theorem rStream_mk (b p : Nat) (inp : List Nat) :
    rStream ⟨b, p, inp⟩
      = (if p = 0 then []
         else (List.range (8 - p)).map (fun i => b.testBit (p + i)))
        ++ bytesBits inp := rfl

/-- Full specification of the `Bitstream::read` loop: the destination
keeps its length and its bytes stay below 256; bits
`[offset, offset + bits)` receive the next `bits` stream bits; every
other destination bit keeps its prior value; and the reader's cursor
advances by exactly `bits` stream bits. -/
theorem Bitstream.readLoop_spec (fuel : Nat) :
    ∀ (s : ReadState) (dest : List Nat) (bits offset : Nat),
      bits ≤ fuel → s.position < 8 → offset < 8 →
      offset + bits ≤ 8 * dest.length →
      (∀ b ∈ dest, b < 256) →
      bits ≤ (rStream s).length →
      (Bitstream.readLoop fuel s dest bits offset).2.length = dest.length ∧
      (∀ b ∈ (Bitstream.readLoop fuel s dest bits offset).2, b < 256) ∧
      (∀ j : Nat,
        bufBit (Bitstream.readLoop fuel s dest bits offset).2 j
          = if offset ≤ j ∧ j < offset + bits
            then (rStream s).getD (j - offset) false
            else bufBit dest j) ∧
      (Bitstream.readLoop fuel s dest bits offset).1.position = (s.position + bits) % 8 ∧
      rStream (Bitstream.readLoop fuel s dest bits offset).1 = (rStream s).drop bits := by
  induction fuel with
  | zero =>
    intro s dest bits offset hb hp ho hcap hbytes hlen
    have h0 : bits = 0 := by omega
    subst h0
    refine ⟨rfl, hbytes, ?_, ?_, rfl⟩
    · intro j
      rw [if_neg (by omega)]
      rfl
    · show s.position = (s.position + 0) % 8
      rw [Nat.add_zero, Nat.mod_eq_of_lt hp]
  | succ fuel ih =>
    intro s dest bits offset hb hp ho hcap hbytes hlen
    by_cases hb0 : bits = 0
    · subst hb0
      have heq : Bitstream.readLoop (fuel + 1) s dest 0 offset = (s, dest) := by
        simp [Bitstream.readLoop]
      rw [heq]
      refine ⟨rfl, hbytes, ?_, ?_, rfl⟩
      · intro j
        rw [if_neg (by omega)]
      · show s.position = (s.position + 0) % 8
        rw [Nat.add_zero, Nat.mod_eq_of_lt hp]
    · obtain ⟨d, dtail, rfl⟩ : ∃ d dtail, dest = d :: dtail := by
        cases dest with
        | nil =>
          exfalso
          simp at hcap
          omega
        | cons d dtail => exact ⟨d, dtail, rfl⟩
      set t : ReadState :=
        if s.position = 0 then ReadState.mk (s.inp.headD 0) 0 s.inp.tail else s with htdef
      have htpos : t.position = s.position := by
        rw [htdef]
        by_cases h0 : s.position = 0
        · rw [if_pos h0, h0]
        · rw [if_neg h0]
      have htp8 : t.position < 8 := by rw [htpos]; exact hp
      have hest : (List.range (8 - t.position)).map (fun i => t.byte.testBit (t.position + i))
          ++ bytesBits t.inp = rStream s := by
        rw [htdef]
        by_cases h0 : s.position = 0
        · rw [if_pos h0]
          cases hinp : s.inp with
          | nil =>
            exfalso
            have hz : rStream s = [] := by
              rw [rStream, if_pos h0, hinp]
              rfl
            rw [hz] at hlen
            simp at hlen
            omega
          | cons x tl =>
            rw [rStream, if_pos h0, hinp]
            show (List.range (8 - 0)).map (fun i => x.testBit (0 + i)) ++ bytesBits tl
                = [] ++ (byteBits x ++ bytesBits tl)
            rw [List.nil_append]
            refine congrArg (· ++ bytesBits tl) ?_
            show (List.range 8).map (fun i => x.testBit (0 + i)) = (List.range 8).map x.testBit
            exact List.map_congr_left fun i _ => congrArg x.testBit (by omega)
        · rw [if_neg h0, rStream, if_neg h0]
      set k : Nat := min (8 - t.position) (min (8 - offset) bits) with hkdef
      have hk1 : 1 ≤ k := by rw [hkdef]; omega
      have hk8p : k ≤ 8 - t.position := by rw [hkdef]; omega
      have hk8o : k ≤ 8 - offset := by rw [hkdef]; omega
      have hkb : k ≤ bits := by rw [hkdef]; omega
      have hd256 : d < 256 := hbytes d (by simp)
      have hstep := Bitstream.readLoop_step fuel s t d dtail bits offset k hb0
        htdef.symm hkdef.symm (by omega)
      rw [hstep]
      have hs2stream : rStream ⟨t.byte, (t.position + k) % 8, t.inp⟩ = (rStream s).drop k := by
        rw [← hest]
        by_cases hpk : t.position + k = 8
        · have hz : (t.position + k) % 8 = 0 := by omega
          rw [rStream_mk, hz, if_pos rfl, List.nil_append]
          have hlen1 : ((List.range (8 - t.position)).map
              (fun i => t.byte.testBit (t.position + i))).length = k := by
            simp
            omega
          rw [List.drop_append_of_le_length (le_of_eq hlen1.symm)]
          rw [range_map_drop _ _ _ (by omega)]
          rw [show 8 - t.position - k = 0 by omega]
          simp
        · have hlt : t.position + k < 8 := by omega
          have hz : (t.position + k) % 8 = t.position + k := Nat.mod_eq_of_lt hlt
          rw [rStream_mk, hz, if_neg (by omega)]
          have hlen1 : ((List.range (8 - t.position)).map
              (fun i => t.byte.testBit (t.position + i))).length = 8 - t.position := by
            simp
          rw [List.drop_append_of_le_length (by rw [hlen1]; omega)]
          rw [range_map_drop _ _ _ (by omega)]
          refine congrArg (· ++ bytesBits t.inp) ?_
          rw [show 8 - t.position - k = 8 - (t.position + k) by omega]
          exact List.map_congr_left fun i _ => congrArg t.byte.testBit (by omega)
      have hs2len : bits - k ≤ (rStream ⟨t.byte, (t.position + k) % 8, t.inp⟩).length := by
        rw [hs2stream, List.length_drop]
        omega
      have hs2p : (ReadState.mk t.byte ((t.position + k) % 8) t.inp).position < 8 := by
        show (t.position + k) % 8 < 8
        exact Nat.mod_lt _ (by norm_num)
      have hestget : ∀ i, i < k →
          (rStream s).getD i false = t.byte.testBit (t.position + i) := by
        intro i hi
        rw [← hest]
        rw [getD_append_left false (by simp; omega)]
        rw [getD_range_map _ _ _ _ (by omega)]
      have hd0'bit : ∀ j, ((d &&& (255 ^^^ ((2 ^ k - 1) <<< offset)))
            ||| (((t.byte >>> t.position) <<< offset) &&& ((2 ^ k - 1) <<< offset))).testBit j
          = if offset ≤ j ∧ j < offset + k then t.byte.testBit (t.position + (j - offset))
            else d.testBit j :=
        fun j => dByte_testBit d t.byte t.position offset k hd256 (by omega) j
      have hd0'lt : (d &&& (255 ^^^ ((2 ^ k - 1) <<< offset)))
            ||| (((t.byte >>> t.position) <<< offset) &&& ((2 ^ k - 1) <<< offset)) < 256 :=
        dByte_lt d t.byte t.position offset k hd256 (by omega)
      by_cases ho8 : offset + k = 8
      · rw [if_pos ho8]
        obtain ⟨g1, g2, g3, g4, g5⟩ := ih (ReadState.mk t.byte ((t.position + k) % 8) t.inp)
          dtail (bits - k) 0 (by omega) hs2p (by norm_num)
          (by simp at hcap ⊢; omega)
          (fun b hb2 => hbytes b (by simp [hb2]))
          hs2len
        refine ⟨?_, ?_, ?_, ?_, ?_⟩
        · show (_ :: _).length = (d :: dtail).length
          simp [g1]
        · intro b hb2
          rcases List.mem_cons.mp hb2 with rfl | hb3
          · exact hd0'lt
          · exact g2 b hb3
        · intro j
          show bufBit (_ :: _) j = _
          rw [bufBit_cons]
          by_cases hj8 : j < 8
          · rw [if_pos hj8, hd0'bit j]
            by_cases hjin : offset ≤ j ∧ j < offset + k
            · rw [if_pos hjin, if_pos (by omega : offset ≤ j ∧ j < offset + bits)]
              rw [hestget (j - offset) (by omega)]
            · rw [if_neg hjin, if_neg (by omega : ¬ (offset ≤ j ∧ j < offset + bits)),
                bufBit_cons, if_pos hj8]
          · rw [if_neg hj8, g3 (j - 8)]
            by_cases hjin : j < offset + bits
            · rw [if_pos (show 0 ≤ j - 8 ∧ j - 8 < 0 + (bits - k) by omega),
                if_pos (show offset ≤ j ∧ j < offset + bits by omega)]
              rw [hs2stream, getD_drop]
              refine congrArg (fun q => (rStream s).getD q false) ?_
              omega
            · rw [if_neg (by omega : ¬ (0 ≤ j - 8 ∧ j - 8 < 0 + (bits - k))),
                if_neg (by omega : ¬ (offset ≤ j ∧ j < offset + bits)),
                bufBit_cons, if_neg hj8]
        · show (Bitstream.readLoop fuel _ dtail (bits - k) 0).1.position = (s.position + bits) % 8
          rw [g4]
          show ((t.position + k) % 8 + (bits - k)) % 8 = (s.position + bits) % 8
          omega
        · show rStream (Bitstream.readLoop fuel _ dtail (bits - k) 0).1 = (rStream s).drop bits
          rw [g5, hs2stream, List.drop_drop]
          refine congrArg (fun q => (rStream s).drop q) ?_
          omega
      · rw [if_neg ho8]
        obtain ⟨g1, g2, g3, g4, g5⟩ := ih (ReadState.mk t.byte ((t.position + k) % 8) t.inp)
          (((d &&& (255 ^^^ ((2 ^ k - 1) <<< offset)))
            ||| (((t.byte >>> t.position) <<< offset) &&& ((2 ^ k - 1) <<< offset))) :: dtail)
          (bits - k) (offset + k)
          (by omega) hs2p (by omega)
          (by simp at hcap ⊢; omega)
          (by
            intro b hb2
            rcases List.mem_cons.mp hb2 with rfl | hb3
            · exact hd0'lt
            · exact hbytes b (by simp [hb3]))
          hs2len
        refine ⟨?_, g2, ?_, ?_, ?_⟩
        · rw [g1]
          rfl
        · intro j
          rw [g3 j]
          by_cases hc1 : offset + k ≤ j ∧ j < offset + k + (bits - k)
          · rw [if_pos hc1, if_pos (show offset ≤ j ∧ j < offset + bits by omega)]
            rw [hs2stream, getD_drop]
            refine congrArg (fun q => (rStream s).getD q false) ?_
            omega
          · rw [if_neg hc1]
            by_cases hj8 : j < 8
            · rw [bufBit_cons, if_pos hj8, hd0'bit j]
              by_cases hjin : offset ≤ j ∧ j < offset + k
              · rw [if_pos hjin, if_pos (show offset ≤ j ∧ j < offset + bits by omega)]
                rw [hestget (j - offset) (by omega)]
              · rw [if_neg hjin, if_neg (by omega : ¬ (offset ≤ j ∧ j < offset + bits)),
                  bufBit_cons, if_pos hj8]
            · rw [bufBit_cons, if_neg hj8,
                if_neg (by omega : ¬ (offset ≤ j ∧ j < offset + bits)),
                bufBit_cons, if_neg hj8]
        · rw [g4]
          show ((t.position + k) % 8 + (bits - k)) % 8 = (s.position + bits) % 8
          omega
        · rw [g5, hs2stream, List.drop_drop]
          refine congrArg (fun q => (rStream s).drop q) ?_
          omega

/-- The writer loop keeps the cursor in `[0, 8)`. -/
theorem Bitstream.writeLoop_position_lt (fuel : Nat) :
    ∀ (s : WriteState) (src : List Nat) (bits offset : Nat), s.position < 8 →
      (Bitstream.writeLoop fuel s src bits offset).position < 8 := by
  induction fuel with
  | zero => intro s src bits offset hp; exact hp
  | succ fuel ih =>
    intro s src bits offset hp
    simp only [Bitstream.writeLoop]
    split
    · exact hp
    · split
      · exact hp
      · split
        · refine ih _ _ _ _ ?_
          split
          · show (0 : Nat) < 8
            norm_num
          · rename_i hne
            show s.position + _ < 8
            omega
        · refine ih _ _ _ _ ?_
          split
          · show (0 : Nat) < 8
            norm_num
          · rename_i hne
            show s.position + _ < 8
            omega

/-- The reader loop keeps the cursor in `[0, 8)`. -/
theorem Bitstream.readLoop_position_lt (fuel : Nat) :
    ∀ (s : ReadState) (dest : List Nat) (bits offset : Nat), s.position < 8 →
      (Bitstream.readLoop fuel s dest bits offset).1.position < 8 := by
  induction fuel with
  | zero => intro s dest bits offset hp; exact hp
  | succ fuel ih =>
    intro s dest bits offset hp
    simp only [Bitstream.readLoop]
    split
    · exact hp
    · by_cases h0 : s.position = 0
      · rw [if_pos h0]
        split
        · show (0 : Nat) < 8
          norm_num
        · split
          · exact ih _ _ _ _ (Nat.mod_lt _ (by norm_num))
          · exact ih _ _ _ _ (Nat.mod_lt _ (by norm_num))
      · rw [if_neg h0]
        split
        · exact hp
        · split
          · exact ih _ _ _ _ (Nat.mod_lt _ (by norm_num))
          · exact ih _ _ _ _ (Nat.mod_lt _ (by norm_num))

/-- Bytes are emitted exactly when the cursor reaches 8: the number of
bytes a write appends is `(position + bits) / 8`. -/
theorem Bitstream.write_out_length (s : WriteState) (src : List Nat) (bits offset : Nat)
    (hp : s.position < 8) (hb : s.byte < 2 ^ s.position) (ho : offset < 8) :
    (Bitstream.write s src bits offset).out.length = s.out.length + (s.position + bits) / 8 := by
  rw [Bitstream.write, Bitstream.writeLoop_eq_writeBools bits s src bits offset le_rfl hp ho]
  obtain ⟨⟨hp', hb'⟩, hs⟩ := Bitstream.writeBools_spec (bufBits src offset bits) s ⟨hp, hb⟩
  have h1 := congrArg List.length hs
  rw [wStream_length, List.length_append, wStream_length] at h1
  have h2 : (bufBits src offset bits).length = bits := by simp [bufBits]
  omega

/-! ### C5 — read inverts write and frames the destination buffer -/

/-- **C5** (confirmed).  For every source buffer, destination buffer, bit
count and bit offset (within the byte, as the C++ requires), reading back
the flushed output of `Bitstream::write` with the same `nBits` and
`offset` reconstructs exactly the written bit range `[offset, offset +
nBits)` of the source in the destination, and every destination bit
outside that range keeps its prior value. -/
theorem c5_read_inverts_write_and_frames (src dest : List Nat) (nBits offset : Nat)
    (hoff : offset < 8)
    (hdest : ∀ b ∈ dest, b < 256)
    (hscap : offset + nBits ≤ 8 * src.length)
    (hdcap : offset + nBits ≤ 8 * dest.length) :
    (Bitstream.read (ReadState.fresh
        (Bitstream.flush (Bitstream.write WriteState.fresh src nBits offset)).out)
        dest nBits offset).2.length = dest.length ∧
    (∀ i, offset ≤ i → i < offset + nBits →
      bufBit (Bitstream.read (ReadState.fresh
          (Bitstream.flush (Bitstream.write WriteState.fresh src nBits offset)).out)
          dest nBits offset).2 i = bufBit src i) ∧
    (∀ j, j < offset ∨ offset + nBits ≤ j →
      bufBit (Bitstream.read (ReadState.fresh
          (Bitstream.flush (Bitstream.write WriteState.fresh src nBits offset)).out)
          dest nBits offset).2 j = bufBit dest j) := by
  have hw : Bitstream.write WriteState.fresh src nBits offset
      = Bitstream.writeBools WriteState.fresh (bufBits src offset nBits) :=
    Bitstream.writeLoop_eq_writeBools nBits WriteState.fresh src nBits offset le_rfl
      (by decide) hoff
  obtain ⟨hinv, hs⟩ :=
    Bitstream.writeBools_spec (bufBits src offset nBits) WriteState.fresh WInv_fresh
  obtain ⟨hfl, -, -⟩ :=
    Bitstream.flush_spec (Bitstream.writeBools WriteState.fresh (bufBits src offset nBits)) hinv
  have hrs : rStream (ReadState.fresh
      (Bitstream.flush (Bitstream.write WriteState.fresh src nBits offset)).out)
      = bufBits src offset nBits
        ++ List.replicate
            ((8 - (Bitstream.writeBools WriteState.fresh (bufBits src offset nBits)).position) % 8)
            false := by
    show bytesBits (Bitstream.flush (Bitstream.write WriteState.fresh src nBits offset)).out = _
    rw [hw, hfl, hs, wStream_fresh, List.nil_append]
  have hlen : nBits ≤ (rStream (ReadState.fresh
      (Bitstream.flush (Bitstream.write WriteState.fresh src nBits offset)).out)).length := by
    rw [hrs, List.length_append]
    have h2 : (bufBits src offset nBits).length = nBits := by simp [bufBits]
    omega
  obtain ⟨g1, g2, g3, g4, g5⟩ := Bitstream.readLoop_spec nBits
    (ReadState.fresh (Bitstream.flush (Bitstream.write WriteState.fresh src nBits offset)).out)
    dest nBits offset le_rfl (by show (0 : Nat) < 8; norm_num) hoff hdcap hdest hlen
  refine ⟨g1, ?_, ?_⟩
  · intro i h1 h2
    have h3 := g3 i
    rw [if_pos ⟨h1, h2⟩, hrs] at h3
    rw [getD_append_left false (by simp [bufBits]; omega)] at h3
    simp only [bufBits] at h3
    rw [getD_range_map _ _ _ _ (by omega)] at h3
    rw [show offset + (i - offset) = i by omega] at h3
    exact h3
  · intro j hj
    have h3 := g3 j
    rw [if_neg (by rcases hj with hj | hj <;> omega)] at h3
    exact h3

/-- Witness for C5: `src = [0xAD, 0x03]`, `dest = [0xFF, 0xFF]`, 10 bits at
offset 3. -/
theorem c5_read_inverts_write_and_frames_witness :
    (Bitstream.read (ReadState.fresh
        (Bitstream.flush (Bitstream.write WriteState.fresh [173, 3] 10 3)).out)
        [255, 255] 10 3).2.length = ([255, 255] : List Nat).length ∧
    (∀ i, 3 ≤ i → i < 3 + 10 →
      bufBit (Bitstream.read (ReadState.fresh
          (Bitstream.flush (Bitstream.write WriteState.fresh [173, 3] 10 3)).out)
          [255, 255] 10 3).2 i = bufBit [173, 3] i) ∧
    (∀ j, j < 3 ∨ 3 + 10 ≤ j →
      bufBit (Bitstream.read (ReadState.fresh
          (Bitstream.flush (Bitstream.write WriteState.fresh [173, 3] 10 3)).out)
          [255, 255] 10 3).2 j = bufBit [255, 255] j) :=
  c5_read_inverts_write_and_frames [173, 3] [255, 255] 10 3 (by decide)
    (by decide) (by decide) (by decide)

/-! ### C10 — cursor invariant and flush idempotence -/

/-- **C10** (confirmed).  Every operation (`write`, `read`,
`operator<<(bool)`, `operator>>(bool&)`) leaves the cursor in `[0, 8)`;
a write emits the accumulator exactly when the cursor reaches 8 (so a
write appends `(position + bits) / 8` bytes); flushing with the cursor at
0 emits nothing; and flushing is idempotent, so two consecutive flushes
emit at most one byte. -/
theorem c10_cursor_invariant_flush (s : WriteState) (r : ReadState)
    (src dest : List Nat) (bits offset : Nat) (b : Bool)
    (hps : s.position < 8) (hbs : s.byte < 2 ^ s.position)
    (hpr : r.position < 8) (ho : offset < 8) :
    (Bitstream.write s src bits offset).position < 8 ∧
    (Bitstream.read r dest bits offset).1.position < 8 ∧
    (Bitstream.writeBool s b).position < 8 ∧
    (Bitstream.readBool r).2.position < 8 ∧
    (Bitstream.write s src bits offset).out.length = s.out.length + (s.position + bits) / 8 ∧
    (s.position = 0 → Bitstream.flush s = s) ∧
    Bitstream.flush (Bitstream.flush s) = Bitstream.flush s ∧
    (Bitstream.flush s).out.length ≤ s.out.length + 1 := by
  refine ⟨Bitstream.writeLoop_position_lt bits s src bits offset hps,
    Bitstream.readLoop_position_lt bits r dest bits offset hpr,
    Bitstream.writeBool_position s b hps,
    ?_, Bitstream.write_out_length s src bits offset hps hbs ho, ?_, ?_, ?_⟩
  · show ((if r.position = 0 then ReadState.mk (r.inp.headD 0) 0 r.inp.tail
        else r).position + 1) % 8 < 8
    exact Nat.mod_lt _ (by norm_num)
  · intro h0
    unfold Bitstream.flush
    rw [if_pos h0]
  · by_cases h0 : s.position = 0
    · have h1 : Bitstream.flush s = s := by
        unfold Bitstream.flush
        rw [if_pos h0]
      rw [h1]
      exact h1
    · have h1 : Bitstream.flush s = ⟨0, 0, s.out ++ [s.byte]⟩ := by
        unfold Bitstream.flush
        rw [if_neg h0]
      rw [h1]
      unfold Bitstream.flush
      rw [if_pos rfl]
  · unfold Bitstream.flush
    by_cases h0 : s.position = 0
    · rw [if_pos h0]
      omega
    · rw [if_neg h0]
      simp

/-- Witness for C10: a mid-byte writer state, a reader on one byte, three
bits at offset 0. -/
theorem c10_cursor_invariant_flush_witness :
    (Bitstream.write ⟨1, 1, []⟩ [5] 3 0).position < 8 ∧
    (Bitstream.read (ReadState.mk 0 0 [9]) [0] 3 0).1.position < 8 ∧
    (Bitstream.writeBool ⟨1, 1, []⟩ true).position < 8 ∧
    (Bitstream.readBool (ReadState.mk 0 0 [9])).2.position < 8 ∧
    (Bitstream.write ⟨1, 1, []⟩ [5] 3 0).out.length
      = (⟨1, 1, []⟩ : WriteState).out.length + ((⟨1, 1, []⟩ : WriteState).position + 3) / 8 ∧
    ((⟨1, 1, []⟩ : WriteState).position = 0 → Bitstream.flush ⟨1, 1, []⟩ = ⟨1, 1, []⟩) ∧
    Bitstream.flush (Bitstream.flush ⟨1, 1, []⟩) = Bitstream.flush ⟨1, 1, []⟩ ∧
    (Bitstream.flush ⟨1, 1, []⟩).out.length ≤ (⟨1, 1, []⟩ : WriteState).out.length + 1 :=
  c10_cursor_invariant_flush ⟨1, 1, []⟩ (ReadState.mk 0 0 [9]) [5] [0] 3 0 true
    (by decide) (by decide) (by decide) (by decide)
